import Mathlib

/-!
# seaShell (`tsh.c`): tokenizer and pipeline executor

A shallow embedding of `tshTokenizeCmdLine`, `tshExecuteCmd` and
`tshParseCmdArgs` from `src/tsh.c`, followed by theorems about them.

* A C string is the list of its characters up to the first NUL (`cStr`).
* A token is a C string; the end-of-sequence sentinel is the empty string.
* Operating-system calls are answered by an oracle (`Os`) that sees the events so far;
  every call the interpreter process makes is appended to an event trace.
-/

namespace Tsh

/-! ## Data model -/

/-- A token is a C string, given by its characters. -/
abbrev Token := List Char

/-- The end-of-sequence marker: the empty string of `strcmp(.., "\0") == 0`. -/
def sentinel : Token := []

/-- The token `&&`. -/
def tokAnd : Token := ['&', '&']

/-- The token `|`. -/
def tokPipe : Token := ['|']

/-- The token `>`. -/
def tokGt : Token := ['>']

/-- The token `<`. -/
def tokLt : Token := ['<']

/-- The name of the built-in `cd`. -/
def tokCd : Token := ['c', 'd']

/-- The name of the built-in `exit`. -/
def tokExit : Token := ['e', 'x', 'i', 't']

/-- The characters a `char*` denotes: those before the first NUL. -/
def cStr (s : List Char) : List Char :=
  s.takeWhile (fun c => decide (c ≠ Char.ofNat 0))

/-! ## Tokenizer (`tshTokenizeCmdLine`, tsh.c 166-254) -/

/-- The local variables of `tshTokenizeCmdLine`. `cmdArgs` holds the completed tokens
(so `cmdArgsIndex = cmdArgs.length`) and `arg` the characters stored so far in the buffer
`cmdArgs[cmdArgsIndex]` (so `argPosition = arg.length`). -/
structure TokState where
  cmdArgs : List Token
  cmdArgsSize : Nat
  arg : List Char
  argSize : Nat
  quoteModeFlag : Int
  deriving DecidableEq, Repr

/-- Lines 237-241: double the capacity of the current buffer once it is full. -/
def growArg (st : TokState) : TokState :=
  if st.arg.length ≥ st.argSize then { st with argSize := st.argSize + st.argSize } else st

/-- Lines 244-253 and 176: close the current token, double the capacity of the token array
when the new index reaches it, and start a fresh buffer. -/
def nextToken (st : TokState) : TokState :=
  let st1 : TokState := { st with cmdArgs := st.cmdArgs ++ [st.arg], arg := [] }
  if st1.cmdArgs.length ≥ st1.cmdArgsSize then
    { st1 with cmdArgsSize := st1.cmdArgsSize + st1.cmdArgsSize }
  else st1

/-- Lines 179-184: the end of the line. -/
def finishLine (st : TokState) : List Token :=
  if st.arg.length ≠ 0 then st.cmdArgs ++ [st.arg, sentinel] else st.cmdArgs ++ [sentinel]

/-- Lines 231-234 followed by the capacity check: store one character. -/
def storeChar (st : TokState) (c : Char) : TokState :=
  growArg { st with arg := st.arg ++ [c] }

/-- The scanning loop of lines 175-253 over the characters that remain to be read.
When the backslash is the last character, the inner switch reads the terminating NUL, matches
no case, and the next iteration reads that NUL again and ends the line. -/
def tokenizeLoop : List Char → TokState → List Token
  | [], st => finishLine st
  | c :: rest, st =>
    if c = '"' then
      tokenizeLoop rest (growArg { st with quoteModeFlag := 1 - st.quoteModeFlag })
    else if c = '\\' then
      match rest with
      | [] => finishLine (growArg st)
      | d :: rest2 =>
        if d = 'n' then
          tokenizeLoop rest2 (growArg { st with arg := st.arg ++ ['\r', '\n'] })
        else if d = '\\' then tokenizeLoop rest2 (storeChar st '\\')
        else if d = '"' then tokenizeLoop rest2 (storeChar st '"')
        else if d = '\'' then tokenizeLoop rest2 (storeChar st '\'')
        else if d = 'r' then tokenizeLoop rest2 (storeChar st '\r')
        else tokenizeLoop (d :: rest2) (growArg st)
    else if c = ' ' ∧ st.quoteModeFlag = 0 then
      if st.arg.length ≠ 0 then tokenizeLoop rest (nextToken st)
      else tokenizeLoop rest (growArg st)
    else tokenizeLoop rest (storeChar st c)

/-- The initial values of lines 167-173. -/
def tokInit : TokState :=
  { cmdArgs := [], cmdArgsSize := 10, arg := [], argSize := 20, quoteModeFlag := 0 }

/-- The function `tshTokenizeCmdLine`: the token array it returns, sentinel included. -/
def tshTokenizeCmdLine (cmdLine : List Char) : List Token :=
  tokenizeLoop (cStr cmdLine) tokInit

/-- The maximal runs of non-space characters of a line, left to right. -/
def nonSpaceRuns (line : List Char) : List (List Char) :=
  (line.splitOn ' ').filter (fun w => decide (w ≠ []))

/-- The text each recognised escape letter stands for. -/
def escapeText (c : Char) : Option (List Char) :=
  if c = 'n' then some ['\r', '\n']
  else if c = 'r' then some ['\r']
  else if c = '\\' then some ['\\']
  else if c = '"' then some ['"']
  else if c = '\'' then some ['\'']
  else none

/-! ## Operating-system interface -/

/-- What the interpreter process does, in order. `call` marks an invocation of
`tshExecuteCmd`; `spawn` is a successful `fork` whose child wires `inFd`/`outFd` onto its
standard input/output and calls `execvp` on `cmd`; `waited` is the `waitpid` loop having seen
that child end. -/
inductive Event where
  | toggle
  | call (cmd : List Token) (inFd outFd : Int)
  | chdir (path : Token) (ok : Bool)
  | spawn (cmd : List Token) (inFd outFd : Int) (pid : Int)
  | forkFail
  | waited (pid : Int)
  | pipe (readEnd writeEnd : Int)
  | close (fd : Int)
  | fopen (fn : Token) (fd : Int)
  | fclose (fd : Int)
  deriving DecidableEq, Repr

/-- The answers of the operating system, each a function of the events so far.
`chdir` tells whether `chdir(path)` returns 0; `fork` gives the child's pid as seen by the
parent, or `none` when `fork` fails; `pipe` gives the contents of `pipeFd` after `pipe(pipeFd)`
(read end, write end); `fopen` gives the descriptor of the stream opened in mode `a+`, or
`none` when `fopen` returns `NULL`. Children are assumed to terminate. -/
structure Os where
  chdir : List Event → Token → Bool
  fork : List Event → Option Int
  pipe : List Event → Int × Int
  fopen : List Event → Token → Option Int

/-- How a call of `tshExecuteCmd` ends: it returns a status, or `exit(EXIT_SUCCESS)` ends the
interpreter, or it reads outside its argument vector. -/
inductive ExecResult where
  | ret (status : Int) (tr : List Event)
  | exited (tr : List Event)
  | fault (tr : List Event)
  deriving DecidableEq, Repr

/-- The events up to the end of the call. -/
def ExecResult.trace : ExecResult → List Event
  | .ret _ tr => tr
  | .exited tr => tr
  | .fault tr => tr

/-- Lines 47-50: the `cd` built-in. `none` means control goes on to line 51.
The vector is read as `NULL`-terminated: `cmd[1] == NULL` holds when `cmd` has one element. -/
def cdBuiltin (os : Os) (tr : List Event) (c0 : Token) (args : List Token) (outFd : Int) :
    List Event × Option Int :=
  if c0 = tokCd ∧ outFd = 1 then
    match args with
    | [] => (tr, some 1)
    | d :: _ =>
      if os.chdir tr d then (tr ++ [Event.chdir d true], none)
      else (tr ++ [Event.chdir d false], some (-1))
  else (tr, none)

/-- The function `tshExecuteCmd` (tsh.c 43-75), seen from the interpreter process. -/
def tshExecuteCmd (os : Os) (tr : List Event) (cmd : List Token) (inFd outFd : Int) :
    ExecResult :=
  let tr0 := tr ++ [Event.call cmd inFd outFd]
  match cmd with
  | [] => .fault tr0
  | c0 :: args =>
    match cdBuiltin os tr0 c0 args outFd with
    | (tr1, some status) => .ret status tr1
    | (tr1, none) =>
      if c0 = tokExit ∧ outFd = 1 then .exited tr1
      else
        match os.fork tr1 with
        | none => .ret (-1) (tr1 ++ [Event.forkFail])
        | some pid => .ret 0 (tr1 ++ [Event.spawn cmd inFd outFd pid, Event.waited pid])

/-! ## Pipeline executor (`tshParseCmdArgs`, tsh.c 89-153) -/

/-- The local variables of `tshParseCmdArgs`, the token array it scans (and overwrites at
line 138), and the events so far. -/
structure ParseState where
  cmdArgs : List Token
  nextInputFd : Int
  cmdArgStart : Nat
  cmdArgEnd : Nat
  cmdArgLength : Int
  cmdArgIndex : Nat
  trace : List Event
  deriving DecidableEq, Repr

/-- How a run of the interpreter's code ends. -/
inductive Outcome where
  | returned (status : Int)
  | exited
  | fault
  deriving DecidableEq, Repr

/-- The end of a run and the events up to it. -/
structure Result where
  outcome : Outcome
  trace : List Event
  deriving DecidableEq, Repr

/-- One iteration of the loop of line 103: it goes round again or ends the run. -/
inductive StepResult where
  | next (s : ParseState)
  | stop (r : Result)
  deriving DecidableEq, Repr

/-- The idiom of lines 105-107: `cmdArgLength = cmdArgEnd - cmdArgStart`, `calloc`, `memcpy`.
`none` when the length is negative or the copy reads outside the array. -/
def buildCmd (s : ParseState) : Option (List Token) :=
  if s.cmdArgStart ≤ s.cmdArgEnd ∧ s.cmdArgEnd ≤ s.cmdArgs.length then
    some ((s.cmdArgs.drop s.cmdArgStart).take (s.cmdArgEnd - s.cmdArgStart))
  else none

/-- The call `memmove(a + dst, a + src, len * sizeof(char*))`; `none` outside the array. -/
def memmove (a : List Token) (dst src len : Nat) : Option (List Token) :=
  if src + len ≤ a.length ∧ dst + len ≤ a.length then
    some (a.take dst ++ (a.drop src).take len ++ a.drop (dst + len))
  else none

/-- The test `strcmp(cmdArgs[cmdArgIndex], op) == 0 && strcmp(cmdArgs[cmdArgIndex+1], "\0") != 0`
of lines 110, 119 and 130; `none` when it reads outside the array. -/
def operatorAt (s : ParseState) (tok op : Token) : Option Bool :=
  if tok = op then
    match s.cmdArgs[s.cmdArgIndex + 1]? with
    | none => none
    | some nx => some (decide (nx ≠ sentinel))
  else some false

/-- End a run with a fault. -/
def faultAt (tr : List Event) : StepResult := .stop { outcome := .fault, trace := tr }

/-- Lines 104-109: the sentinel. -/
def stepSentinel (os : Os) (s : ParseState) : StepResult :=
  match buildCmd s with
  | none => faultAt s.trace
  | some cmd =>
    match tshExecuteCmd os s.trace cmd s.nextInputFd 1 with
    | .ret _ tr => .stop { outcome := .returned 0, trace := tr ++ [Event.toggle] }
    | .exited tr => .stop { outcome := .exited, trace := tr }
    | .fault tr => faultAt tr

/-- Lines 110-118 and 147: `&&`. -/
def stepAnd (os : Os) (s : ParseState) : StepResult :=
  match buildCmd s with
  | none => faultAt s.trace
  | some cmd =>
    match tshExecuteCmd os s.trace cmd s.nextInputFd 1 with
    | .ret _ tr =>
      .next { s with
        trace := tr, nextInputFd := 0, cmdArgLength := 0,
        cmdArgEnd := s.cmdArgEnd + 1, cmdArgStart := s.cmdArgEnd + 1,
        cmdArgIndex := s.cmdArgIndex + 1 }
    | .exited tr => .stop { outcome := .exited, trace := tr }
    | .fault tr => faultAt tr

/-- Lines 119-129 and 147: `|`. -/
def stepPipe (os : Os) (s : ParseState) : StepResult :=
  match buildCmd s with
  | none => faultAt s.trace
  | some cmd =>
    let pipeFd := os.pipe s.trace
    match tshExecuteCmd os (s.trace ++ [Event.pipe pipeFd.1 pipeFd.2]) cmd s.nextInputFd
        pipeFd.2 with
    | .ret _ tr =>
      .next { s with
        trace := tr ++ [Event.close pipeFd.2], nextInputFd := pipeFd.1, cmdArgLength := 0,
        cmdArgEnd := s.cmdArgEnd + 1, cmdArgStart := s.cmdArgEnd + 1,
        cmdArgIndex := s.cmdArgIndex + 1 }
    | .exited tr => .stop { outcome := .exited, trace := tr }
    | .fault tr => faultAt tr

/-- Lines 130-140 and 147: `>`. A `NULL` stream makes `fileno(fp)` a fault. -/
def stepRedirect (os : Os) (s : ParseState) : StepResult :=
  match buildCmd s with
  | none => faultAt s.trace
  | some cmd =>
    match s.cmdArgs[s.cmdArgEnd + 1]? with
    | none => faultAt s.trace
    | some fn =>
      match os.fopen s.trace fn with
      | none => faultAt s.trace
      | some fd =>
        match tshExecuteCmd os (s.trace ++ [Event.fopen fn fd]) cmd s.nextInputFd fd with
        | .ret _ tr =>
          match memmove s.cmdArgs 2 s.cmdArgStart (s.cmdArgEnd - s.cmdArgStart) with
          | none => faultAt (tr ++ [Event.fclose fd])
          | some moved =>
            .next { s with
              cmdArgs := moved, trace := tr ++ [Event.fclose fd],
              cmdArgLength := (s.cmdArgEnd : Int) - (s.cmdArgStart : Int),
              cmdArgStart := s.cmdArgStart + 2, cmdArgEnd := s.cmdArgEnd + 1,
              cmdArgIndex := s.cmdArgIndex + 1 }
        | .exited tr => .stop { outcome := .exited, trace := tr }
        | .fault tr => faultAt tr

/-- Lines 143-147: a command word. -/
def stepWord (s : ParseState) : StepResult :=
  .next { s with
    cmdArgEnd := s.cmdArgEnd + 1, cmdArgLength := s.cmdArgLength + 1,
    cmdArgIndex := s.cmdArgIndex + 1 }

/-- One iteration of the loop of lines 103-148. On `<` the `continue` of line 142 goes back
to line 103 without reaching the increment of line 147. -/
def parseStep (os : Os) (s : ParseState) : StepResult :=
  match s.cmdArgs[s.cmdArgIndex]? with
  | none => faultAt s.trace
  | some tok =>
    if tok = sentinel then stepSentinel os s
    else
      match operatorAt s tok tokAnd with
      | none => faultAt s.trace
      | some true => stepAnd os s
      | some false =>
        match operatorAt s tok tokPipe with
        | none => faultAt s.trace
        | some true => stepPipe os s
        | some false =>
          match operatorAt s tok tokGt with
          | none => faultAt s.trace
          | some true => stepRedirect os s
          | some false =>
            if tok = tokLt then .next s
            else stepWord s

/-- The loop of line 103, run for at most `fuel` iterations; `none` when they do not
suffice. -/
def parseLoop (os : Os) : Nat → ParseState → Option Result
  | 0, _ => none
  | fuel + 1, s =>
    match parseStep os s with
    | .next s2 => parseLoop os fuel s2
    | .stop r => some r

/-- The values of lines 91-95 after the first `toggleOutputPostprocessing()` of line 101. -/
def parseInit (cmdArgs : List Token) : ParseState :=
  { cmdArgs := cmdArgs, nextInputFd := 0, cmdArgStart := 0, cmdArgEnd := 0,
    cmdArgLength := 0, cmdArgIndex := 0, trace := [Event.toggle] }

/-- The function `tshParseCmdArgs`, its loop run for at most `fuel` iterations. -/
def tshParseCmdArgs (os : Os) (fuel : Nat) (cmdArgs : List Token) : Option Result :=
  match cmdArgs[0]? with
  | none => some { outcome := .fault, trace := [] }
  | some t =>
    if t = sentinel then some { outcome := .returned 0, trace := [] }
    else parseLoop os fuel (parseInit cmdArgs)

/-! ## Vocabulary of the statements -/

/-- A command word: a non-empty token that is none of the operators. -/
def isWord (w : Token) : Prop :=
  w ≠ sentinel ∧ w ≠ tokAnd ∧ w ≠ tokPipe ∧ w ≠ tokGt ∧ w ≠ tokLt

instance (w : Token) : Decidable (isWord w) := by unfold isWord; infer_instance

/-- A non-empty list of command words. -/
def isCommand (W : List Token) : Prop := W ≠ [] ∧ ∀ w ∈ W, isWord w

instance (W : List Token) : Decidable (isCommand W) := by unfold isCommand; infer_instance

/-- The segments `W1 .. Wk` with the operator `op` between neighbours. -/
def chain (op : Token) : List (List Token) → List Token
  | [] => []
  | [W] => W
  | W :: W2 :: Ws => W ++ op :: chain op (W2 :: Ws)

/-- The events of a trace that are the parser's own wiring: invocations of `tshExecuteCmd`,
pipes created, descriptors closed, files opened and closed. -/
def wiring (tr : List Event) : List Event :=
  tr.filter fun e =>
    match e with
    | .call _ _ _ => true
    | .pipe _ _ => true
    | .close _ => true
    | .fopen _ _ => true
    | .fclose _ => true
    | _ => false

/-- The invocations of `tshExecuteCmd` in a trace: argument vector, input, output. -/
def execCalls (tr : List Event) : List (List Token × Int × Int) :=
  tr.filterMap fun e =>
    match e with
    | .call cmd i o => some (cmd, i, o)
    | _ => none

/-- The wiring of a pipeline `W1 | .. | Wk` whose pipes, in order of creation, are `ps`
and whose first stage reads from `inFd`. -/
def pipelineWiring : List (List Token) → List (Int × Int) → Int → List Event
  | [], _, _ => []
  | [W], _, inFd => [Event.call W inFd 1]
  | W :: W2 :: Ws, ps, inFd =>
    match ps with
    | [] => []
    | p :: ps2 =>
      Event.pipe p.1 p.2 :: Event.call W inFd p.2 :: Event.close p.2 ::
        pipelineWiring (W2 :: Ws) ps2 p.1

/-- A sample operating system: every call succeeds, pipes are (3, 4), files open on 3. -/
def sampleOs : Os :=
  { chdir := fun _ _ => true, fork := fun _ => some 100,
    pipe := fun _ => (3, 4), fopen := fun _ _ => some 3 }

/-- A sample operating system in which `chdir` fails. -/
def noDirOs : Os :=
  { chdir := fun _ _ => false, fork := fun _ => some 100,
    pipe := fun _ => (3, 4), fopen := fun _ _ => some 3 }

/-! ## Stores of the tokenizer -/

/-- A store made by `tshTokenizeCmdLine`: `slot i cap` writes `cmdArgs[i]` while
`cmdArgsSize = cap` (lines 176, 182, 183); `char i cap` writes `cmdArgs[cmdArgsIndex][i]`
while `argSize = cap` (lines 181, 193-215, 224, 232). -/
inductive Store where
  | slot (index capacity : Nat)
  | char (position capacity : Nat)
  deriving DecidableEq, Repr

/-- The store lies inside the array or buffer it writes to. -/
def Store.inBounds : Store → Bool
  | .slot i cap => decide (i < cap)
  | .char i cap => decide (i < cap)

/-- The stores of lines 179-184, at the end of the line. -/
def endStores (st : TokState) : List Store :=
  if st.arg.length ≠ 0 then
    [Store.char st.arg.length st.argSize, Store.slot (st.cmdArgs.length + 1) st.cmdArgsSize]
  else [Store.slot st.cmdArgs.length st.cmdArgsSize]

/-- The stores made by the loop of lines 175-253, in order; the states are those of
`tokenizeLoop`. After a token is closed, line 176 stores the next buffer at the new
`cmdArgsIndex`. -/
def storesLoop : List Char → TokState → List Store
  | [], st => endStores st
  | c :: rest, st =>
    if c = '"' then
      storesLoop rest (growArg { st with quoteModeFlag := 1 - st.quoteModeFlag })
    else if c = '\\' then
      match rest with
      | [] => endStores (growArg st)
      | d :: rest2 =>
        if d = 'n' then
          Store.char st.arg.length st.argSize :: Store.char (st.arg.length + 1) st.argSize ::
            storesLoop rest2 (growArg { st with arg := st.arg ++ ['\r', '\n'] })
        else if d = '\\' then
          Store.char st.arg.length st.argSize :: storesLoop rest2 (storeChar st '\\')
        else if d = '"' then
          Store.char st.arg.length st.argSize :: storesLoop rest2 (storeChar st '"')
        else if d = '\'' then
          Store.char st.arg.length st.argSize :: storesLoop rest2 (storeChar st '\'')
        else if d = 'r' then
          Store.char st.arg.length st.argSize :: storesLoop rest2 (storeChar st '\r')
        else storesLoop (d :: rest2) (growArg st)
    else if c = ' ' ∧ st.quoteModeFlag = 0 then
      if st.arg.length ≠ 0 then
        Store.char st.arg.length st.argSize ::
          Store.slot (nextToken st).cmdArgs.length (nextToken st).cmdArgsSize ::
            storesLoop rest (nextToken st)
      else storesLoop rest (growArg st)
    else Store.char st.arg.length st.argSize :: storesLoop rest (storeChar st c)

/-- The stores made by `tshTokenizeCmdLine` on a line, the first being line 176 at index 0. -/
def tokenizeStores (cmdLine : List Char) : List Store :=
  Store.slot tokInit.cmdArgs.length tokInit.cmdArgsSize :: storesLoop (cStr cmdLine) tokInit

/-! ## Further vocabulary -/

/-- The attempts to create a process in a trace: successful and failed calls of `fork`. -/
def forkAttempts (tr : List Event) : List Event :=
  tr.filter fun e =>
    match e with
    | .spawn _ _ _ _ => true
    | .forkFail => true
    | _ => false

/-- The calls of `chdir` in a trace. -/
def chdirCalls (tr : List Event) : List Event :=
  tr.filter fun e =>
    match e with
    | .chdir _ _ => true
    | _ => false

/-- The descriptors the interpreter holds open after one more event. -/
def fdsAfter (held : List Int) : Event → List Int
  | .pipe r w => held ++ [r, w]
  | .fopen _ fd => held ++ [fd]
  | .close fd => held.erase fd
  | .fclose fd => held.erase fd
  | _ => held

/-- The descriptors obtained during a trace (pipe ends, opened files) and not closed by
the end of it. -/
def leakedFds (tr : List Event) : List Int :=
  tr.foldl fdsAfter []

/-! ## Lemmas on the tokenizer -/

theorem tokenizeLoop_nil (st : TokState) : tokenizeLoop [] st = finishLine st := rfl

theorem tokenizeLoop_cons (c : Char) (rest : List Char) (st : TokState) :
    tokenizeLoop (c :: rest) st =
      if c = '"' then
        tokenizeLoop rest (growArg { st with quoteModeFlag := 1 - st.quoteModeFlag })
      else if c = '\\' then
        match rest with
        | [] => finishLine (growArg st)
        | d :: rest2 =>
          if d = 'n' then
            tokenizeLoop rest2 (growArg { st with arg := st.arg ++ ['\r', '\n'] })
          else if d = '\\' then tokenizeLoop rest2 (storeChar st '\\')
          else if d = '"' then tokenizeLoop rest2 (storeChar st '"')
          else if d = '\'' then tokenizeLoop rest2 (storeChar st '\'')
          else if d = 'r' then tokenizeLoop rest2 (storeChar st '\r')
          else tokenizeLoop (d :: rest2) (growArg st)
      else if c = ' ' ∧ st.quoteModeFlag = 0 then
        if st.arg.length ≠ 0 then tokenizeLoop rest (nextToken st)
        else tokenizeLoop rest (growArg st)
      else tokenizeLoop rest (storeChar st c) := by
  cases rest <;> rfl

@[simp] theorem growArg_cmdArgs (st : TokState) : (growArg st).cmdArgs = st.cmdArgs := by
  unfold growArg; split <;> rfl
@[simp] theorem growArg_arg (st : TokState) : (growArg st).arg = st.arg := by
  unfold growArg; split <;> rfl
@[simp] theorem growArg_quoteModeFlag (st : TokState) :
    (growArg st).quoteModeFlag = st.quoteModeFlag := by
  unfold growArg; split <;> rfl
@[simp] theorem nextToken_cmdArgs (st : TokState) :
    (nextToken st).cmdArgs = st.cmdArgs ++ [st.arg] := by
  unfold nextToken; simp only []; split <;> rfl
@[simp] theorem nextToken_arg (st : TokState) : (nextToken st).arg = [] := by
  unfold nextToken; simp only []; split <;> rfl
@[simp] theorem nextToken_quoteModeFlag (st : TokState) :
    (nextToken st).quoteModeFlag = st.quoteModeFlag := by
  unfold nextToken; simp only []; split <;> rfl
@[simp] theorem storeChar_cmdArgs (st : TokState) (c : Char) :
    (storeChar st c).cmdArgs = st.cmdArgs := by simp [storeChar]
@[simp] theorem storeChar_arg (st : TokState) (c : Char) :
    (storeChar st c).arg = st.arg ++ [c] := by simp [storeChar]
@[simp] theorem storeChar_quoteModeFlag (st : TokState) (c : Char) :
    (storeChar st c).quoteModeFlag = st.quoteModeFlag := by simp [storeChar]

theorem modifyHead_modifyHead {α : Type} (f g : α → α) (l : List α) :
    (l.modifyHead g).modifyHead f = l.modifyHead (f ∘ g) := by
  cases l <;> rfl

theorem modifyHead_same {α : Type} (l : List α) : l.modifyHead (fun w => w) = l := by
  cases l <;> rfl

theorem tokenizeLoop_unquoted (line : List Char)
    (h : ∀ c ∈ line, c ≠ '"' ∧ c ≠ '\\') (st : TokState) (hq : st.quoteModeFlag = 0) :
    tokenizeLoop line st
      = st.cmdArgs
        ++ (((line.splitOn ' ').modifyHead (fun w => st.arg ++ w)).filter
              (fun w => decide (w ≠ [])))
        ++ [sentinel] := by
  induction line generalizing st with
  | nil =>
    simp only [tokenizeLoop_nil, finishLine, List.splitOn, List.splitOnP_nil, List.modifyHead]
    by_cases ha : st.arg = [] <;> simp [ha]
  | cons c rest ih =>
    have hc := h c (List.mem_cons_self _ _)
    have hr : ∀ d ∈ rest, d ≠ '"' ∧ d ≠ '\\' := fun d hd => h d (List.mem_cons_of_mem _ hd)
    simp only [List.splitOn] at ih ⊢
    rw [tokenizeLoop_cons, if_neg hc.1, if_neg hc.2, List.splitOnP_cons]
    by_cases hs : c = ' '
    · subst hs
      by_cases ha : st.arg = []
      · simp [hq, ha, ih hr, modifyHead_same]
      · simp [hq, ha, ih hr, modifyHead_same]
    · have hs2 : (c == ' ') = false := by simpa using hs
      simp only [hs, false_and, if_false, hs2, Bool.false_eq_true]
      rw [ih hr _ (by simpa using hq), modifyHead_modifyHead]
      simp only [storeChar_cmdArgs, storeChar_arg]
      congr 3
      congr 1
      funext w
      simp

theorem cStr_eq_self (line : List Char) (h : ∀ c ∈ line, c ≠ Char.ofNat 0) :
    cStr line = line := by
  unfold cStr
  rw [List.takeWhile_eq_self_iff]
  intro c hc
  simpa using h c hc

theorem nonSpaceRuns_spaces (line : List Char) (h : ∀ c ∈ line, c = ' ') :
    nonSpaceRuns line = [] := by
  induction line with
  | nil => rfl
  | cons c rest ih =>
    have hc : c = ' ' := h c (List.mem_cons_self _ _)
    subst hc
    have := ih (fun d hd => h d (List.mem_cons_of_mem _ hd))
    simp only [nonSpaceRuns, List.splitOn] at this ⊢
    rw [List.splitOnP_cons]
    simpa using this

/-- Claim C1: on a line without double quote and backslash the tokens before the sentinel
are the maximal runs of non-space characters, left to right; a line of spaces only (the
empty line included) gives the sentinel alone. -/
theorem tokenize_runs (line : List Char)
    (hnul : ∀ c ∈ line, c ≠ Char.ofNat 0)
    (h : ∀ c ∈ line, c ≠ '"' ∧ c ≠ '\\') :
    tshTokenizeCmdLine line = nonSpaceRuns line ++ [sentinel]
    ∧ ((∀ c ∈ line, c = ' ') → tshTokenizeCmdLine line = [sentinel]) := by
  have key : tshTokenizeCmdLine line = nonSpaceRuns line ++ [sentinel] := by
    unfold tshTokenizeCmdLine
    rw [cStr_eq_self line hnul, tokenizeLoop_unquoted line h tokInit rfl]
    simp [tokInit, nonSpaceRuns, modifyHead_same]
  refine ⟨key, fun hsp => ?_⟩
  rw [key, nonSpaceRuns_spaces line hsp]
  rfl

theorem tokenize_runs_witness :
    tshTokenizeCmdLine "echo hello world".toList
      = ["echo".toList, "hello".toList, "world".toList, sentinel] :=
  (tokenize_runs "echo hello world".toList (by decide) (by decide)).1.trans (by decide)

theorem tokenizeLoop_store_run (s rest : List Char) (st : TokState)
    (h : ∀ c ∈ s, c ≠ '"' ∧ c ≠ '\\' ∧ (c = ' ' → st.quoteModeFlag ≠ 0)) :
    ∃ st2 : TokState, st2.cmdArgs = st.cmdArgs ∧ st2.arg = st.arg ++ s
      ∧ st2.quoteModeFlag = st.quoteModeFlag
      ∧ tokenizeLoop (s ++ rest) st = tokenizeLoop rest st2 := by
  induction s generalizing st with
  | nil => exact ⟨st, rfl, by simp, rfl, rfl⟩
  | cons c s ih =>
    have hc := h c (List.mem_cons_self _ _)
    obtain ⟨st2, h1, h2, h3, h4⟩ := ih (storeChar st c)
      (fun d hd => by simpa using h d (List.mem_cons_of_mem _ hd))
    refine ⟨st2, by simpa using h1, by simpa using h2, by simpa using h3, ?_⟩
    rw [List.cons_append, tokenizeLoop_cons, if_neg hc.1, if_neg hc.2.1, if_neg, h4]
    rintro ⟨hsp, hq⟩
    exact hc.2.2 hsp hq

/-- Claim C2: a non-empty text between one pair of double quotes, itself free of double
quote and backslash, becomes one token: the quotes are dropped and its spaces do not split
it. -/
theorem tokenize_quoted (s : List Char) (hne : s ≠ [])
    (hnul : ∀ c ∈ s, c ≠ Char.ofNat 0)
    (h : ∀ c ∈ s, c ≠ '"' ∧ c ≠ '\\') :
    tshTokenizeCmdLine ("echo \"".toList ++ s ++ "\" c".toList)
      = ["echo".toList, s, "c".toList, sentinel] := by
  unfold tshTokenizeCmdLine
  rw [cStr_eq_self]
  · obtain ⟨st2, h1, h2, h3, h4⟩ := tokenizeLoop_store_run s "\" c".toList
      (growArg { nextToken (storeChar (storeChar (storeChar (storeChar tokInit 'e') 'c') 'h') 'o')
                  with quoteModeFlag := 1 })
      (fun c hc => ⟨(h c hc).1, (h c hc).2, fun _ => by simp⟩)
    have e1 : tokenizeLoop ("echo \"".toList ++ s ++ "\" c".toList) tokInit
        = tokenizeLoop (s ++ "\" c".toList)
            (growArg { nextToken (storeChar (storeChar (storeChar (storeChar tokInit 'e') 'c') 'h') 'o')
                  with quoteModeFlag := 1 }) := by
      simp [String.toList, tokenizeLoop_cons, tokInit]
    rw [e1, h4]
    simp [String.toList, tokenizeLoop_cons, tokenizeLoop_nil, finishLine, h1, h2, h3, hne, tokInit,
      sentinel]
  · intro c hc
    simp only [String.toList, List.mem_append] at hc
    rcases hc with (hc | hc) | hc
    · revert c; decide
    · exact hnul c hc
    · revert c; decide

theorem tokenize_quoted_witness :
    tshTokenizeCmdLine "echo \"a b\" c".toList
      = ["echo".toList, "a b".toList, "c".toList, sentinel] :=
  tokenize_quoted "a b".toList (by decide) (by decide) (by decide)

theorem tokenizeLoop_escape (c : Char) (t rest : List Char) (st : TokState)
    (ht : escapeText c = some t) :
    ∃ st2 : TokState, st2.cmdArgs = st.cmdArgs ∧ st2.arg = st.arg ++ t
      ∧ st2.quoteModeFlag = st.quoteModeFlag
      ∧ tokenizeLoop ('\\' :: c :: rest) st = tokenizeLoop rest st2 := by
  unfold escapeText at ht
  rw [tokenizeLoop_cons]
  split_ifs at ht with h1 h2 h3 h4 h5
  all_goals subst_vars
  all_goals simp only [Option.some.injEq] at ht
  all_goals subst ht
  · exact ⟨growArg { st with arg := st.arg ++ ['\r', '\n'] }, by simp, by simp, by simp,
      by simp⟩
  · exact ⟨storeChar st '\r', by simp, by simp, by simp, by simp⟩
  · exact ⟨storeChar st '\\', by simp, by simp, by simp, by simp⟩
  · exact ⟨storeChar st '"', by simp, by simp, by simp, by simp⟩
  · exact ⟨storeChar st '\'', by simp, by simp, by simp, by simp⟩

theorem escapeText_ne_nil (c : Char) (t : List Char) (ht : escapeText c = some t) :
    t ≠ [] ∧ c ≠ Char.ofNat 0 := by
  unfold escapeText at ht
  split_ifs at ht <;> simp_all <;> subst_vars <;> simp

/-- Claim C3: a backslash followed by a recognised escape letter is replaced, inside the
token, by the text the letter stands for; the line with an escaped backslash between `a`
and `b` gives the token with one backslash. -/
theorem tokenize_escape (p q : List Char) (c : Char) (t : List Char)
    (hp : ∀ x ∈ p, x ≠ ' ' ∧ x ≠ '"' ∧ x ≠ '\\' ∧ x ≠ Char.ofNat 0)
    (hq : ∀ x ∈ q, x ≠ ' ' ∧ x ≠ '"' ∧ x ≠ '\\' ∧ x ≠ Char.ofNat 0)
    (ht : escapeText c = some t) :
    tshTokenizeCmdLine (p ++ '\\' :: c :: q) = [p ++ t ++ q, sentinel]
    ∧ tshTokenizeCmdLine "echo a\\\\b".toList = ["echo".toList, "a\\b".toList, sentinel] := by
  refine ⟨?_, by decide⟩
  unfold tshTokenizeCmdLine
  rw [cStr_eq_self]
  · obtain ⟨s1, a1, b1, c1, d1⟩ := tokenizeLoop_store_run p ('\\' :: c :: q) tokInit
      (fun x hx => ⟨(hp x hx).2.1, (hp x hx).2.2.1, fun hs => absurd hs (hp x hx).1⟩)
    obtain ⟨s2, a2, b2, c2, d2⟩ := tokenizeLoop_escape c t q s1 ht
    obtain ⟨s3, a3, b3, c3, d3⟩ := tokenizeLoop_store_run q [] s2
      (fun x hx => ⟨(hq x hx).2.1, (hq x hx).2.2.1, fun hs => absurd hs (hq x hx).1⟩)
    rw [d1, d2]
    rw [List.append_nil] at d3
    rw [d3, tokenizeLoop_nil, finishLine]
    have hne := (escapeText_ne_nil c t ht).1
    simp [a3, b3, a2, b2, a1, b1, tokInit, hne]
  · intro x hx
    simp only [List.mem_append, List.mem_cons] at hx
    rcases hx with hx | hx | hx | hx
    · exact (hp x hx).2.2.2
    · subst hx; decide
    · subst hx; exact (escapeText_ne_nil x t ht).2
    · exact (hq x hx).2.2.2

theorem tokenize_escape_witness :
    tshTokenizeCmdLine "a\\nb".toList = ['a', '\r', '\n', 'b'] :: [sentinel] :=
  (tokenize_escape ['a'] ['b'] 'n' ['\r', '\n'] (by decide) (by decide) (by decide)).1

/-! ## Lemmas on the executor -/

theorem getElem?_after {α : Type} (pre post : List α) (k : Nat) :
    (pre ++ post)[pre.length + k]? = post[k]? := by
  rw [List.getElem?_append_right (by omega)]
  congr 1
  omega

theorem wiring_append (a b : List Event) : wiring (a ++ b) = wiring a ++ wiring b := by
  simp [wiring]

theorem cdBuiltin_wiring (os : Os) (tr : List Event) (c0 : Token) (args : List Token)
    (o : Int) : wiring (cdBuiltin os tr c0 args o).1 = wiring tr := by
  unfold cdBuiltin
  split_ifs with h
  · cases args with
    | nil => rfl
    | cons d rest =>
      simp only
      split_ifs <;> simp [wiring]
  · rfl

theorem wiring_tshExecuteCmd (os : Os) (tr : List Event) (cmd : List Token) (i o : Int) :
    wiring (tshExecuteCmd os tr cmd i o).trace = wiring tr ++ [Event.call cmd i o] := by
  have base : wiring (tr ++ [Event.call cmd i o]) = wiring tr ++ [Event.call cmd i o] := by
    simp [wiring]
  unfold tshExecuteCmd
  cases cmd with
  | nil => simpa [ExecResult.trace] using base
  | cons c0 args =>
    have hcd := cdBuiltin_wiring os (tr ++ [Event.call (c0 :: args) i o]) c0 args o
    simp only
    rcases hb : cdBuiltin os (tr ++ [Event.call (c0 :: args) i o]) c0 args o with ⟨tr1, st⟩
    rw [hb] at hcd
    simp only at hcd
    cases st with
    | some status => simpa [ExecResult.trace, hcd] using base
    | none =>
      simp only
      split_ifs
      · simpa [ExecResult.trace, hcd] using base
      · cases os.fork tr1 with
        | none =>
          simp only [ExecResult.trace, wiring_append, hcd, base]
          simp [wiring]
        | some pid =>
          simp only [ExecResult.trace, wiring_append, hcd, base]
          simp [wiring]

theorem tshExecuteCmd_returns (os : Os) (tr : List Event) (c0 : Token) (args : List Token)
    (i o : Int) (h : ¬ (c0 = tokExit ∧ o = 1)) :
    ∃ status tr2, tshExecuteCmd os tr (c0 :: args) i o = .ret status tr2 := by
  unfold tshExecuteCmd
  simp only
  rcases cdBuiltin os (tr ++ [Event.call (c0 :: args) i o]) c0 args o with ⟨tr1, st⟩
  cases st with
  | some status => exact ⟨status, tr1, rfl⟩
  | none =>
    simp only [if_neg h]
    cases os.fork tr1 with
    | none => exact ⟨_, _, rfl⟩
    | some pid => exact ⟨_, _, rfl⟩

theorem parseStep_word (os : Os) (s : ParseState) (w : Token)
    (hget : s.cmdArgs[s.cmdArgIndex]? = some w) (hw : isWord w) :
    parseStep os s = stepWord s := by
  obtain ⟨h0, h1, h2, h3, h4⟩ := hw
  simp [parseStep, hget, operatorAt, h0, h1, h2, h3, h4]

theorem parseStep_sentinel (os : Os) (s : ParseState)
    (hget : s.cmdArgs[s.cmdArgIndex]? = some sentinel) :
    parseStep os s = stepSentinel os s := by
  simp [parseStep, hget]

theorem parseStep_and (os : Os) (s : ParseState) (nx : Token)
    (hget : s.cmdArgs[s.cmdArgIndex]? = some tokAnd)
    (hnext : s.cmdArgs[s.cmdArgIndex + 1]? = some nx) (hnx : nx ≠ sentinel) :
    parseStep os s = stepAnd os s := by
  have hnx2 : nx ≠ [] := hnx
  simp [parseStep, hget, operatorAt, hnext, hnx2, tokAnd, sentinel]

theorem parseStep_pipe (os : Os) (s : ParseState) (nx : Token)
    (hget : s.cmdArgs[s.cmdArgIndex]? = some tokPipe)
    (hnext : s.cmdArgs[s.cmdArgIndex + 1]? = some nx) (hnx : nx ≠ sentinel) :
    parseStep os s = stepPipe os s := by
  have hnx2 : nx ≠ [] := hnx
  simp [parseStep, hget, operatorAt, hnext, hnx2, tokAnd, tokPipe, sentinel]

theorem parseStep_redirect (os : Os) (s : ParseState) (nx : Token)
    (hget : s.cmdArgs[s.cmdArgIndex]? = some tokGt)
    (hnext : s.cmdArgs[s.cmdArgIndex + 1]? = some nx) (hnx : nx ≠ sentinel) :
    parseStep os s = stepRedirect os s := by
  have hnx2 : nx ≠ [] := hnx
  simp [parseStep, hget, operatorAt, hnext, hnx2, tokAnd, tokPipe, tokGt, sentinel]

theorem parseStep_trailing (os : Os) (s : ParseState) (op : Token)
    (hop : op = tokAnd ∨ op = tokPipe ∨ op = tokGt)
    (hget : s.cmdArgs[s.cmdArgIndex]? = some op)
    (hnext : s.cmdArgs[s.cmdArgIndex + 1]? = some sentinel) :
    parseStep os s = stepWord s := by
  rcases hop with rfl | rfl | rfl <;>
    simp [parseStep, hget, operatorAt, hnext, tokAnd, tokPipe, tokGt, tokLt, sentinel]

theorem parseStep_lt (os : Os) (s : ParseState)
    (hget : s.cmdArgs[s.cmdArgIndex]? = some tokLt) :
    parseStep os s = .next s := by
  simp [parseStep, hget, operatorAt, tokAnd, tokPipe, tokGt, tokLt, sentinel]

theorem parseLoop_succ (os : Os) (n : Nat) (s : ParseState) :
    parseLoop os (n + 1) s =
      match parseStep os s with
      | .next s2 => parseLoop os n s2
      | .stop r => some r := rfl

/-- Scanning a run of command words moves the cursor and the end of the segment. -/
theorem parseLoop_words (os : Os) (ws : List Token) (hw : ∀ w ∈ ws, isWord w)
    (pre post : List Token) (s : ParseState)
    (hargs : s.cmdArgs = pre ++ (ws ++ post)) (hidx : s.cmdArgIndex = pre.length) (n : Nat) :
    parseLoop os (ws.length + n) s =
      parseLoop os n { s with
        cmdArgEnd := s.cmdArgEnd + ws.length,
        cmdArgLength := s.cmdArgLength + ws.length,
        cmdArgIndex := s.cmdArgIndex + ws.length } := by
  induction ws generalizing pre s with
  | nil => simp
  | cons w ws ih =>
    have hget : s.cmdArgs[s.cmdArgIndex]? = some w := by
      rw [hargs, hidx]
      simpa using getElem?_after pre (w :: (ws ++ post)) 0
    have hstep := parseStep_word os s w hget (hw w (List.mem_cons_self _ _))
    rw [show (w :: ws).length + n = (ws.length + n) + 1 by simp; omega, parseLoop_succ, hstep,
      stepWord]
    simp only
    rw [ih (fun x hx => hw x (List.mem_cons_of_mem _ hx)) (pre ++ [w])]
    · congr 1
      simp only [List.length_cons, Nat.cast_add, Nat.cast_one]
      congr 1 <;> omega
    · simp [hargs]
    · simp [hidx]

theorem buildCmd_segment (s : ParseState) (pre W post : List Token)
    (hargs : s.cmdArgs = pre ++ (W ++ post)) (hstart : s.cmdArgStart = pre.length)
    (hend : s.cmdArgEnd = pre.length + W.length) : buildCmd s = some W := by
  unfold buildCmd
  rw [hargs, hstart, hend, if_pos (by simp)]
  simp

theorem stepSentinel_wiring (os : Os) (s : ParseState) (cmd : List Token)
    (hb : buildCmd s = some cmd) :
    ∃ r, stepSentinel os s = .stop r
      ∧ wiring r.trace = wiring s.trace ++ [Event.call cmd s.nextInputFd 1] := by
  have hw := wiring_tshExecuteCmd os s.trace cmd s.nextInputFd 1
  unfold stepSentinel
  rw [hb]
  simp only
  cases hx : tshExecuteCmd os s.trace cmd s.nextInputFd 1 with
  | ret status tr =>
    rw [hx] at hw
    refine ⟨_, rfl, ?_⟩
    simp only [wiring_append, ← hw, ExecResult.trace]
    simp [wiring]
  | exited tr =>
    rw [hx] at hw
    exact ⟨_, rfl, by simpa [ExecResult.trace] using hw⟩
  | fault tr =>
    rw [hx] at hw
    exact ⟨_, rfl, by simpa [ExecResult.trace] using hw⟩

theorem parseLoop_sentinel (os : Os) (s : ParseState) (cmd : List Token)
    (hget : s.cmdArgs[s.cmdArgIndex]? = some sentinel) (hb : buildCmd s = some cmd)
    (extra : Nat) :
    ∃ r, parseLoop os (1 + extra) s = some r
      ∧ wiring r.trace = wiring s.trace ++ [Event.call cmd s.nextInputFd 1] := by
  obtain ⟨r, hr, hwr⟩ := stepSentinel_wiring os s cmd hb
  refine ⟨r, ?_, hwr⟩
  rw [Nat.add_comm, parseLoop_succ, parseStep_sentinel os s hget, hr]

/-- A last segment of command words followed by the sentinel is executed once. -/
theorem parseLoop_last (os : Os) (W : List Token) (hW : ∀ w ∈ W, isWord w)
    (pre : List Token) (s : ParseState)
    (hargs : s.cmdArgs = pre ++ (W ++ [sentinel])) (hidx : s.cmdArgIndex = pre.length)
    (hstart : s.cmdArgStart = pre.length) (hend : s.cmdArgEnd = pre.length) (extra : Nat) :
    ∃ r, parseLoop os (W.length + (1 + extra)) s = some r
      ∧ wiring r.trace = wiring s.trace ++ [Event.call W s.nextInputFd 1] := by
  rw [parseLoop_words os W hW pre [sentinel] s hargs hidx]
  apply parseLoop_sentinel
  · simp only [hargs, hidx]
    rw [← List.append_assoc, ← List.length_append]
    simpa using getElem?_after (pre ++ W) [sentinel] 0
  · exact buildCmd_segment _ pre W [sentinel] hargs hstart (by simp [hend])

theorem chain_head (op : Token) (Ws : List (List Token)) (hne : Ws ≠ [])
    (hW : ∀ W ∈ Ws, isCommand W) :
    ∃ w rest, chain op Ws = w :: rest ∧ w ≠ sentinel := by
  cases Ws with
  | nil => exact absurd rfl hne
  | cons W tl =>
    obtain ⟨hWne, hWw⟩ := hW W (List.mem_cons_self _ _)
    cases W with
    | nil => exact absurd rfl hWne
    | cons w W2 =>
      have hw : w ≠ sentinel := (hWw w (List.mem_cons_self _ _)).1
      cases tl with
      | nil => exact ⟨w, W2, rfl, hw⟩
      | cons W3 tl2 => exact ⟨w, _, rfl, hw⟩

theorem stepAnd_next (os : Os) (s : ParseState) (cmd : List Token) (status : Int)
    (tr : List Event) (hb : buildCmd s = some cmd)
    (hex : tshExecuteCmd os s.trace cmd s.nextInputFd 1 = .ret status tr) :
    stepAnd os s = .next { s with
        trace := tr, nextInputFd := 0, cmdArgLength := 0,
        cmdArgEnd := s.cmdArgEnd + 1, cmdArgStart := s.cmdArgEnd + 1,
        cmdArgIndex := s.cmdArgIndex + 1 } := by
  simp [stepAnd, hb, hex]

/-- A segment of command words followed by `&&` and a further token: the segment is executed
with the inherited output, and the scan goes on behind the operator with an empty segment. -/
theorem parseLoop_andSegment (os : Os) (W : List Token) (hW : ∀ w ∈ W, isWord w)
    (pre post : List Token) (nx : Token) (hnx : nx ≠ sentinel) (s : ParseState)
    (hargs : s.cmdArgs = pre ++ (W ++ tokAnd :: nx :: post))
    (hidx : s.cmdArgIndex = pre.length)
    (hstart : s.cmdArgStart = pre.length) (hend : s.cmdArgEnd = pre.length)
    (status : Int) (tr : List Event)
    (hex : tshExecuteCmd os s.trace W s.nextInputFd 1 = .ret status tr) (n : Nat) :
    parseLoop os (W.length + (1 + n)) s =
      parseLoop os n { s with
        trace := tr, nextInputFd := 0, cmdArgLength := 0,
        cmdArgEnd := pre.length + W.length + 1, cmdArgStart := pre.length + W.length + 1,
        cmdArgIndex := pre.length + W.length + 1 } := by
  rw [parseLoop_words os W hW pre (tokAnd :: nx :: post) s hargs hidx, Nat.add_comm 1 n,
    parseLoop_succ]
  have e : pre ++ (W ++ tokAnd :: nx :: post) = (pre ++ W) ++ (tokAnd :: nx :: post) := by simp
  generalize hs1 : ({ s with
        cmdArgEnd := s.cmdArgEnd + W.length,
        cmdArgLength := s.cmdArgLength + W.length,
        cmdArgIndex := s.cmdArgIndex + W.length } : ParseState) = s1
  have a1 : s1.cmdArgs = pre ++ (W ++ tokAnd :: nx :: post) := by rw [← hs1]; exact hargs
  have a2 : s1.cmdArgIndex = (pre ++ W).length := by rw [← hs1]; simp [hidx]
  have a3 : s1.cmdArgStart = pre.length := by rw [← hs1]; exact hstart
  have a4 : s1.cmdArgEnd = pre.length + W.length := by rw [← hs1]; simp [hend]
  have a5 : s1.trace = s.trace := by rw [← hs1]
  have a6 : s1.nextInputFd = s.nextInputFd := by rw [← hs1]
  have g0 : s1.cmdArgs[s1.cmdArgIndex]? = some tokAnd := by
    rw [a1, a2, e]
    simpa using getElem?_after (pre ++ W) (tokAnd :: nx :: post) 0
  have g1 : s1.cmdArgs[s1.cmdArgIndex + 1]? = some nx := by
    rw [a1, a2, e]
    simpa using getElem?_after (pre ++ W) (tokAnd :: nx :: post) 1
  rw [parseStep_and os s1 nx g0 g1 hnx,
    stepAnd_next os s1 W status tr (buildCmd_segment s1 pre W _ a1 a3 a4) (by rw [a5, a6]; exact hex)]
  simp only [a4, a2, List.length_append]
  rw [← hs1]

theorem tshExecuteCmd_returns_of_head (os : Os) (tr : List Event) (W : List Token)
    (hne : W ≠ []) (i o : Int) (h : W.head? ≠ some tokExit ∨ o ≠ 1) :
    ∃ status tr2, tshExecuteCmd os tr W i o = .ret status tr2 := by
  cases W with
  | nil => exact absurd rfl hne
  | cons c0 args =>
    apply tshExecuteCmd_returns
    rintro ⟨h1, h2⟩
    rcases h with h | h
    · exact h (by simp [h1])
    · exact h h2

theorem wiring_of_ret (os : Os) (tr : List Event) (cmd : List Token) (i o : Int)
    (status : Int) (tr2 : List Event) (h : tshExecuteCmd os tr cmd i o = .ret status tr2) :
    wiring tr2 = wiring tr ++ [Event.call cmd i o] := by
  have := wiring_tshExecuteCmd os tr cmd i o
  rwa [h] at this

theorem parseLoop_andChain (os : Os) (Ws : List (List Token)) :
    ∀ (pre : List Token) (s : ParseState), Ws ≠ [] → (∀ W ∈ Ws, isCommand W) →
      (∀ W ∈ Ws.dropLast, W.head? ≠ some tokExit) →
      s.cmdArgs = pre ++ (chain tokAnd Ws ++ [sentinel]) → s.cmdArgIndex = pre.length →
      s.cmdArgStart = pre.length → s.cmdArgEnd = pre.length → s.nextInputFd = 0 →
      ∀ extra : Nat, ∃ r, parseLoop os ((chain tokAnd Ws).length + (1 + extra)) s = some r
        ∧ wiring r.trace = wiring s.trace ++ Ws.map (fun W => Event.call W 0 1) := by
  induction Ws with
  | nil => intro _ _ h; exact absurd rfl h
  | cons W tl ih =>
    intro pre s _ hW hexit hargs hidx hstart hend hin extra
    have hWc := hW W (List.mem_cons_self _ _)
    cases tl with
    | nil =>
      obtain ⟨r, hr, hwr⟩ := parseLoop_last os W hWc.2 pre s hargs hidx hstart hend extra
      exact ⟨r, hr, by simpa [hin] using hwr⟩
    | cons W2 tl2 =>
      have htl : ∀ V ∈ W2 :: tl2, isCommand V := fun V hV => hW V (List.mem_cons_of_mem _ hV)
      obtain ⟨nx, post, hch, hnx⟩ := chain_head tokAnd (W2 :: tl2) (by simp) htl
      have hargs2 : s.cmdArgs = pre ++ (W ++ tokAnd :: nx :: (post ++ [sentinel])) := by
        rw [hargs, chain, hch]; simp
      obtain ⟨status, tr, hex⟩ := tshExecuteCmd_returns_of_head os s.trace W hWc.1
        s.nextInputFd 1 (Or.inl (hexit W (by simp [List.dropLast])))
      have hlen : (chain tokAnd (W :: W2 :: tl2)).length + (1 + extra)
          = W.length + (1 + ((chain tokAnd (W2 :: tl2)).length + (1 + extra))) := by
        simp [chain]; omega
      rw [hlen, parseLoop_andSegment os W hWc.2 pre (post ++ [sentinel]) nx hnx s hargs2 hidx
        hstart hend status tr hex]
      obtain ⟨r, hr, hwr⟩ := ih (pre ++ W ++ [tokAnd])
        { s with
          trace := tr, nextInputFd := 0, cmdArgLength := 0,
          cmdArgEnd := pre.length + W.length + 1, cmdArgStart := pre.length + W.length + 1,
          cmdArgIndex := pre.length + W.length + 1 }
        (by simp) htl
        (fun V hV => hexit V (by simp [List.dropLast, hV]))
        (by simp [hargs2, hch]) (by simp; omega) (by simp; omega) (by simp; omega) rfl extra
      refine ⟨r, hr, ?_⟩
      rw [hwr]
      simp only [wiring_of_ret os s.trace W s.nextInputFd 1 status tr hex, hin, List.map_cons,
        List.append_assoc, List.singleton_append]

theorem wiring_parseInit (cmdArgs : List Token) : wiring (parseInit cmdArgs).trace = [] := rfl

theorem tshParseCmdArgs_of_head (os : Os) (fuel : Nat) (w : Token) (rest : List Token)
    (hw : w ≠ sentinel) :
    tshParseCmdArgs os fuel (w :: rest) = parseLoop os fuel (parseInit (w :: rest)) := by
  simp [tshParseCmdArgs, hw]

/-- Claim C4, amended: segments joined by `&&`, none but possibly the last starting with
`exit`, are each executed once, in order, with inherited input and output. -/
theorem parse_and_chain (os : Os) (Ws : List (List Token)) (hne : Ws ≠ [])
    (hW : ∀ W ∈ Ws, isCommand W) (hexit : ∀ W ∈ Ws.dropLast, W.head? ≠ some tokExit)
    (extra : Nat) :
    ∃ r, tshParseCmdArgs os ((chain tokAnd Ws ++ [sentinel]).length + extra)
          (chain tokAnd Ws ++ [sentinel]) = some r
      ∧ wiring r.trace = Ws.map (fun W => Event.call W 0 1) := by
  obtain ⟨w, rest, hch, hw⟩ := chain_head tokAnd Ws hne hW
  obtain ⟨r, hr, hwr⟩ := parseLoop_andChain os Ws [] (parseInit (chain tokAnd Ws ++ [sentinel]))
    hne hW hexit rfl rfl rfl rfl rfl extra
  refine ⟨r, ?_, by simpa [wiring_parseInit] using hwr⟩
  rw [← hr]
  have e : chain tokAnd Ws ++ [sentinel] = w :: (rest ++ [sentinel]) := by simp [hch]
  rw [e, tshParseCmdArgs_of_head os _ w _ hw, ← e]
  congr 1
  simp; omega

theorem parse_and_chain_witness :
    (∀ W ∈ [["echo".toList, "a".toList], ["ls".toList], ["exit".toList]], isCommand W)
    ∧ ∃ r, tshParseCmdArgs sampleOs 7
          ["echo".toList, "a".toList, tokAnd, "ls".toList, tokAnd, "exit".toList, sentinel]
            = some r
        ∧ wiring r.trace = [Event.call ["echo".toList, "a".toList] 0 1,
            Event.call ["ls".toList] 0 1, Event.call ["exit".toList] 0 1] :=
  ⟨by decide,
    parse_and_chain sampleOs [["echo".toList, "a".toList], ["ls".toList], ["exit".toList]]
      (by decide) (by decide) (by decide) 0⟩

/-- Claim C4, counterexample: in `exit && a` the first invocation ends the interpreter, so
`tshExecuteCmd` is invoked once, not twice, and never with `a`. -/
theorem parse_and_chain_counterexample :
    (∀ W ∈ [[tokExit], [['a']]], isCommand W)
    ∧ tshParseCmdArgs sampleOs 4 (chain tokAnd [[tokExit], [['a']]] ++ [sentinel])
        = some { outcome := .exited, trace := [Event.toggle, Event.call [tokExit] 0 1] }
    ∧ wiring [Event.toggle, Event.call [tokExit] 0 1]
        ≠ [[tokExit], [['a']]].map (fun W => Event.call W 0 1) := by
  decide

theorem parseLoop_andPair (os : Os) (A B : List Token) (hA : isCommand A)
    (hB : isCommand B) (status : Int) (tr : List Event)
    (hex : tshExecuteCmd os [Event.toggle] A 0 1 = .ret status tr) (extra : Nat) :
    ∃ r, tshParseCmdArgs os (A.length + (1 + (B.length + (1 + extra))))
          (A ++ (tokAnd :: (B ++ [sentinel]))) = some r
      ∧ wiring r.trace = [Event.call A 0 1, Event.call B 0 1] := by
  obtain ⟨a, A2, rfl⟩ := List.exists_cons_of_ne_nil hA.1
  obtain ⟨b, B2, rfl⟩ := List.exists_cons_of_ne_nil hB.1
  have ha : a ≠ sentinel := (hA.2 a (List.mem_cons_self _ _)).1
  have hb : b ≠ sentinel := (hB.2 b (List.mem_cons_self _ _)).1
  rw [List.cons_append, tshParseCmdArgs_of_head os _ a _ ha, ← List.cons_append,
    parseLoop_andSegment os (a :: A2) hA.2 [] (B2 ++ [sentinel]) b hb _ (by simp [parseInit])
      rfl rfl rfl status tr hex]
  obtain ⟨r, hr, hwr⟩ := parseLoop_last os (b :: B2) hB.2 ((a :: A2) ++ [tokAnd])
    { parseInit ((a :: A2) ++ (tokAnd :: ((b :: B2) ++ [sentinel]))) with
      trace := tr, nextInputFd := 0, cmdArgLength := 0,
      cmdArgEnd := ([] : List Token).length + (a :: A2).length + 1,
      cmdArgStart := ([] : List Token).length + (a :: A2).length + 1,
      cmdArgIndex := ([] : List Token).length + (a :: A2).length + 1 }
    (by simp [parseInit]) (by simp) (by simp) (by simp) extra
  refine ⟨r, hr, ?_⟩
  have hw := wiring_of_ret os _ _ _ _ status tr hex
  rw [hwr]
  show wiring tr ++ _ = _
  rw [hw]
  rfl

/-- Claim C7, amended: in `A && B` the segment `B` is executed after `A` whatever status
the execution of `A` returned, zero or not. -/
theorem parse_and_ignores_status (os : Os) (A B : List Token) (hA : isCommand A)
    (hB : isCommand B) (status : Int) (tr : List Event)
    (hex : tshExecuteCmd os [Event.toggle] A 0 1 = .ret status tr) (extra : Nat) :
    ∃ r, tshParseCmdArgs os ((A ++ tokAnd :: B ++ [sentinel]).length + extra)
          (A ++ tokAnd :: B ++ [sentinel]) = some r
      ∧ wiring r.trace = [Event.call A 0 1, Event.call B 0 1] := by
  have e : A ++ tokAnd :: B ++ [sentinel] = A ++ (tokAnd :: (B ++ [sentinel])) := by simp
  have hlen : (A ++ (tokAnd :: (B ++ [sentinel]))).length + extra
      = A.length + (1 + (B.length + (1 + extra))) := by simp; omega
  rw [e, hlen]
  exact parseLoop_andPair os A B hA hB status tr hex extra

theorem parse_and_ignores_status_witness :
    isCommand [tokCd, ['x']] ∧ isCommand ["echo".toList, "hi".toList]
    ∧ tshExecuteCmd noDirOs [Event.toggle] [tokCd, ['x']] 0 1
        = .ret (-1) [Event.toggle, Event.call [tokCd, ['x']] 0 1, Event.chdir ['x'] false]
    ∧ ∃ r, tshParseCmdArgs noDirOs 6
          [tokCd, ['x'], tokAnd, "echo".toList, "hi".toList, sentinel] = some r
        ∧ wiring r.trace = [Event.call [tokCd, ['x']] 0 1,
            Event.call ["echo".toList, "hi".toList] 0 1] :=
  ⟨by decide, by decide, by decide,
    parse_and_ignores_status noDirOs [tokCd, ['x']] ["echo".toList, "hi".toList] (by decide)
      (by decide) (-1)
      [Event.toggle, Event.call [tokCd, ['x']] 0 1, Event.chdir ['x'] false] (by decide) 0⟩

/-- Claim C7, counterexample: `cd x` fails with status -1 when `chdir` fails, and the
segment after `&&` is executed all the same. -/
theorem parse_and_short_circuit_counterexample :
    isCommand [tokCd, ['x']] ∧ isCommand ["echo".toList, "hi".toList]
    ∧ tshExecuteCmd noDirOs [Event.toggle] [tokCd, ['x']] 0 1
        = .ret (-1) [Event.toggle, Event.call [tokCd, ['x']] 0 1, Event.chdir ['x'] false]
    ∧ (tshParseCmdArgs noDirOs 6
          [tokCd, ['x'], tokAnd, "echo".toList, "hi".toList, sentinel]).map
        (fun r => execCalls r.trace)
        = some [([tokCd, ['x']], 0, 1), (["echo".toList, "hi".toList], 0, 1)] := by
  decide

theorem stepPipe_next (os : Os) (s : ParseState) (cmd : List Token) (status : Int)
    (tr : List Event) (hb : buildCmd s = some cmd)
    (hex : tshExecuteCmd os (s.trace ++ [Event.pipe (os.pipe s.trace).1 (os.pipe s.trace).2])
      cmd s.nextInputFd (os.pipe s.trace).2 = .ret status tr) :
    stepPipe os s = .next { s with
        trace := tr ++ [Event.close (os.pipe s.trace).2], nextInputFd := (os.pipe s.trace).1,
        cmdArgLength := 0,
        cmdArgEnd := s.cmdArgEnd + 1, cmdArgStart := s.cmdArgEnd + 1,
        cmdArgIndex := s.cmdArgIndex + 1 } := by
  simp [stepPipe, hb, hex]

/-- A segment of command words followed by `|` and a further token: a pipe is created, the
segment is executed writing to it, the write end is closed, and the scan goes on behind the
operator with an empty segment that reads from the pipe. -/
theorem parseLoop_pipeSegment (os : Os) (W : List Token) (hW : ∀ w ∈ W, isWord w)
    (pre post : List Token) (nx : Token) (hnx : nx ≠ sentinel) (s : ParseState)
    (hargs : s.cmdArgs = pre ++ (W ++ tokPipe :: nx :: post))
    (hidx : s.cmdArgIndex = pre.length)
    (hstart : s.cmdArgStart = pre.length) (hend : s.cmdArgEnd = pre.length)
    (status : Int) (tr : List Event)
    (hex : tshExecuteCmd os (s.trace ++ [Event.pipe (os.pipe s.trace).1 (os.pipe s.trace).2])
      W s.nextInputFd (os.pipe s.trace).2 = .ret status tr) (n : Nat) :
    parseLoop os (W.length + (1 + n)) s =
      parseLoop os n { s with
        trace := tr ++ [Event.close (os.pipe s.trace).2], nextInputFd := (os.pipe s.trace).1,
        cmdArgLength := 0,
        cmdArgEnd := pre.length + W.length + 1, cmdArgStart := pre.length + W.length + 1,
        cmdArgIndex := pre.length + W.length + 1 } := by
  rw [parseLoop_words os W hW pre (tokPipe :: nx :: post) s hargs hidx, Nat.add_comm 1 n,
    parseLoop_succ]
  have e : pre ++ (W ++ tokPipe :: nx :: post) = (pre ++ W) ++ (tokPipe :: nx :: post) := by
    simp
  generalize hs1 : ({ s with
        cmdArgEnd := s.cmdArgEnd + W.length,
        cmdArgLength := s.cmdArgLength + W.length,
        cmdArgIndex := s.cmdArgIndex + W.length } : ParseState) = s1
  have a1 : s1.cmdArgs = pre ++ (W ++ tokPipe :: nx :: post) := by rw [← hs1]; exact hargs
  have a2 : s1.cmdArgIndex = (pre ++ W).length := by rw [← hs1]; simp [hidx]
  have a3 : s1.cmdArgStart = pre.length := by rw [← hs1]; exact hstart
  have a4 : s1.cmdArgEnd = pre.length + W.length := by rw [← hs1]; simp [hend]
  have a5 : s1.trace = s.trace := by rw [← hs1]
  have a6 : s1.nextInputFd = s.nextInputFd := by rw [← hs1]
  have g0 : s1.cmdArgs[s1.cmdArgIndex]? = some tokPipe := by
    rw [a1, a2, e]
    simpa using getElem?_after (pre ++ W) (tokPipe :: nx :: post) 0
  have g1 : s1.cmdArgs[s1.cmdArgIndex + 1]? = some nx := by
    rw [a1, a2, e]
    simpa using getElem?_after (pre ++ W) (tokPipe :: nx :: post) 1
  rw [parseStep_pipe os s1 nx g0 g1 hnx,
    stepPipe_next os s1 W status tr (buildCmd_segment s1 pre W _ a1 a3 a4)
      (by rw [a5, a6]; exact hex)]
  simp only [a4, a2, a5, List.length_append]
  rw [← hs1]

theorem parseLoop_pipeChain (os : Os) (hpipe : ∀ h, (os.pipe h).2 ≠ 1)
    (Ws : List (List Token)) :
    ∀ (pre : List Token) (s : ParseState), Ws ≠ [] → (∀ W ∈ Ws, isCommand W) →
      s.cmdArgs = pre ++ (chain tokPipe Ws ++ [sentinel]) → s.cmdArgIndex = pre.length →
      s.cmdArgStart = pre.length → s.cmdArgEnd = pre.length →
      ∀ extra : Nat, ∃ r ps, parseLoop os ((chain tokPipe Ws).length + (1 + extra)) s = some r
        ∧ ps.length + 1 = Ws.length
        ∧ wiring r.trace = wiring s.trace ++ pipelineWiring Ws ps s.nextInputFd := by
  induction Ws with
  | nil => intro _ _ h; exact absurd rfl h
  | cons W tl ih =>
    intro pre s _ hW hargs hidx hstart hend extra
    have hWc := hW W (List.mem_cons_self _ _)
    cases tl with
    | nil =>
      obtain ⟨r, hr, hwr⟩ := parseLoop_last os W hWc.2 pre s hargs hidx hstart hend extra
      exact ⟨r, [], hr, rfl, by simpa [pipelineWiring] using hwr⟩
    | cons W2 tl2 =>
      have htl : ∀ V ∈ W2 :: tl2, isCommand V := fun V hV => hW V (List.mem_cons_of_mem _ hV)
      obtain ⟨nx, post, hch, hnx⟩ := chain_head tokPipe (W2 :: tl2) (by simp) htl
      have hargs2 : s.cmdArgs = pre ++ (W ++ tokPipe :: nx :: (post ++ [sentinel])) := by
        rw [hargs, chain, hch]; simp
      obtain ⟨status, tr, hex⟩ := tshExecuteCmd_returns_of_head os
        (s.trace ++ [Event.pipe (os.pipe s.trace).1 (os.pipe s.trace).2]) W hWc.1
        s.nextInputFd (os.pipe s.trace).2 (Or.inr (hpipe _))
      have hlen : (chain tokPipe (W :: W2 :: tl2)).length + (1 + extra)
          = W.length + (1 + ((chain tokPipe (W2 :: tl2)).length + (1 + extra))) := by
        simp [chain]; omega
      rw [hlen, parseLoop_pipeSegment os W hWc.2 pre (post ++ [sentinel]) nx hnx s hargs2 hidx
        hstart hend status tr hex]
      obtain ⟨r, ps, hr, hps, hwr⟩ := ih (pre ++ W ++ [tokPipe])
        { s with
          trace := tr ++ [Event.close (os.pipe s.trace).2],
          nextInputFd := (os.pipe s.trace).1, cmdArgLength := 0,
          cmdArgEnd := pre.length + W.length + 1, cmdArgStart := pre.length + W.length + 1,
          cmdArgIndex := pre.length + W.length + 1 }
        (by simp) htl
        (by simp [hargs2, hch]) (by simp; omega) (by simp; omega) (by simp; omega) extra
      refine ⟨r, os.pipe s.trace :: ps, hr, by simp [hps], ?_⟩
      have hw := wiring_of_ret os _ W _ _ status tr hex
      rw [hwr]
      show wiring (tr ++ [Event.close (os.pipe s.trace).2]) ++ _ = _
      rw [wiring_append, hw, wiring_append]
      simp [pipelineWiring, wiring]

/-- Claim C5: a pipeline of k >= 2 stages creates k-1 pipes; stage 1 reads the inherited
input, stage i+1 reads the read end of the pipe stage i wrote to, the last stage writes to
the inherited output, and each write end is closed right after its stage was executed and
before the next pipe is made. The operating system never hands out descriptor 1 as the
write end of a pipe. -/
theorem parse_pipeline (os : Os) (hpipe : ∀ h, (os.pipe h).2 ≠ 1)
    (Ws : List (List Token)) (hk : 2 ≤ Ws.length)
    (hW : ∀ W ∈ Ws, isCommand W) (extra : Nat) :
    ∃ r ps, tshParseCmdArgs os ((chain tokPipe Ws ++ [sentinel]).length + extra)
          (chain tokPipe Ws ++ [sentinel]) = some r
      ∧ ps.length + 1 = Ws.length
      ∧ wiring r.trace = pipelineWiring Ws ps 0 := by
  have hne : Ws ≠ [] := by rintro rfl; simp at hk
  obtain ⟨w, rest, hch, hw⟩ := chain_head tokPipe Ws hne hW
  obtain ⟨r, ps, hr, hps, hwr⟩ := parseLoop_pipeChain os hpipe Ws []
    (parseInit (chain tokPipe Ws ++ [sentinel])) hne hW rfl rfl rfl rfl extra
  refine ⟨r, ps, ?_, hps, by simpa [wiring_parseInit] using hwr⟩
  rw [← hr]
  have e : chain tokPipe Ws ++ [sentinel] = w :: (rest ++ [sentinel]) := by simp [hch]
  rw [e, tshParseCmdArgs_of_head os _ w _ hw, ← e]
  congr 1
  simp; omega

theorem parse_pipeline_witness :
    (∀ W ∈ [["echo".toList, "hi".toList], ["tr".toList, "a-z".toList, "A-Z".toList]],
        isCommand W)
    ∧ ∃ r ps, tshParseCmdArgs sampleOs 7
          ["echo".toList, "hi".toList, tokPipe, "tr".toList, "a-z".toList, "A-Z".toList,
            sentinel] = some r
        ∧ ps.length + 1 = 2
        ∧ wiring r.trace = pipelineWiring
            [["echo".toList, "hi".toList], ["tr".toList, "a-z".toList, "A-Z".toList]] ps 0 :=
  ⟨by decide,
    parse_pipeline sampleOs (fun _ => by simp [sampleOs])
      [["echo".toList, "hi".toList], ["tr".toList, "a-z".toList, "A-Z".toList]]
      (by decide) (by decide) 0⟩

theorem memmove_redirect (W : List Token) (g f : Token) :
    memmove (W ++ [g, f, sentinel]) 2 0 W.length
      = some ((W ++ [g, f, sentinel]).take 2 ++ (W ++ [sentinel])) := by
  unfold memmove
  rw [if_pos (by simp; omega)]
  simp [List.take_append_eq_append_take, List.drop_append_eq_append_drop]

theorem stepRedirect_next (os : Os) (s : ParseState) (cmd : List Token) (fn : Token)
    (fd status : Int) (tr : List Event) (moved : List Token) (hb : buildCmd s = some cmd)
    (hfn : s.cmdArgs[s.cmdArgEnd + 1]? = some fn) (hopen : os.fopen s.trace fn = some fd)
    (hex : tshExecuteCmd os (s.trace ++ [Event.fopen fn fd]) cmd s.nextInputFd fd
      = .ret status tr)
    (hmv : memmove s.cmdArgs 2 s.cmdArgStart (s.cmdArgEnd - s.cmdArgStart) = some moved) :
    stepRedirect os s = .next { s with
        cmdArgs := moved, trace := tr ++ [Event.fclose fd],
        cmdArgLength := (s.cmdArgEnd : Int) - (s.cmdArgStart : Int),
        cmdArgStart := s.cmdArgStart + 2, cmdArgEnd := s.cmdArgEnd + 1,
        cmdArgIndex := s.cmdArgIndex + 1 } := by
  simp [stepRedirect, hb, hfn, hopen, hex, hmv]

theorem tshParseCmdArgs_of_isCommand (os : Os) (fuel : Nat) (W rest : List Token)
    (hW : isCommand W) :
    tshParseCmdArgs os fuel (W ++ rest) = parseLoop os fuel (parseInit (W ++ rest)) := by
  obtain ⟨a, W2, rfl⟩ := List.exists_cons_of_ne_nil hW.1
  exact tshParseCmdArgs_of_head os fuel a _ (hW.2 a (List.mem_cons_self _ _)).1

/-- The run on `W > f`: the file is opened, `W` is executed writing to it, the file is
closed, line 138 copies `W` to index 2 of the array, and the scan meets `W` again. -/
theorem parse_redirect_run (os : Os) (W : List Token) (f : Token) (h : Int)
    (hW : isCommand W) (hf : f ≠ sentinel) (hopen : os.fopen [Event.toggle] f = some h)
    (hh : h ≠ 1) (extra : Nat) :
    ∃ r, tshParseCmdArgs os ((W ++ [tokGt, f, sentinel]).length + extra)
          (W ++ [tokGt, f, sentinel]) = some r
      ∧ wiring r.trace
          = [Event.fopen f h, Event.call W 0 h, Event.fclose h, Event.call W 0 1] := by
  obtain ⟨status, tr, hex⟩ := tshExecuteCmd_returns_of_head os
    ([Event.toggle] ++ [Event.fopen f h]) W hW.1 0 h (Or.inr hh)
  have hwtr := wiring_of_ret os _ W _ _ status tr hex
  rw [tshParseCmdArgs_of_isCommand os _ W _ hW,
    show (W ++ [tokGt, f, sentinel]).length + extra = W.length + ((1 + (1 + extra)) + 1) by
      simp; omega,
    parseLoop_words os W hW.2 [] [tokGt, f, sentinel] (parseInit (W ++ [tokGt, f, sentinel]))
      rfl rfl, parseLoop_succ]
  generalize hs1 : ({ parseInit (W ++ [tokGt, f, sentinel]) with
        cmdArgEnd := (parseInit (W ++ [tokGt, f, sentinel])).cmdArgEnd + W.length,
        cmdArgLength := (parseInit (W ++ [tokGt, f, sentinel])).cmdArgLength + W.length,
        cmdArgIndex := (parseInit (W ++ [tokGt, f, sentinel])).cmdArgIndex + W.length }
          : ParseState) = s1
  have a1 : s1.cmdArgs = W ++ [tokGt, f, sentinel] := by rw [← hs1]; rfl
  have a2 : s1.cmdArgIndex = W.length := by rw [← hs1]; simp [parseInit]
  have a3 : s1.cmdArgStart = 0 := by rw [← hs1]; rfl
  have a4 : s1.cmdArgEnd = W.length := by rw [← hs1]; simp [parseInit]
  have a5 : s1.trace = [Event.toggle] := by rw [← hs1]; rfl
  have a6 : s1.nextInputFd = 0 := by rw [← hs1]; rfl
  have g0 : s1.cmdArgs[s1.cmdArgIndex]? = some tokGt := by
    rw [a1, a2]; simpa using getElem?_after W [tokGt, f, sentinel] 0
  have g1 : s1.cmdArgs[s1.cmdArgIndex + 1]? = some f := by
    rw [a1, a2]; simpa using getElem?_after W [tokGt, f, sentinel] 1
  rw [parseStep_redirect os s1 f g0 g1 hf,
    stepRedirect_next os s1 W f h status tr
      ((W ++ [tokGt, f, sentinel]).take 2 ++ (W ++ [sentinel]))
      (buildCmd_segment s1 [] W _ (by simpa using a1) (by simp [a3]) (by simp [a4]))
      (by rw [a4]; exact g1 ▸ (by rw [a2])) (by rw [a5]; exact hopen)
      (by rw [a5, a6]; exact hex)
      (by rw [a1, a3, a4]; exact memmove_redirect W tokGt f)]
  simp only [a2, a3, a4]
  obtain ⟨W0, wl, rfl⟩ : ∃ W0 wl, W = W0 ++ [wl] :=
    ⟨W.dropLast, W.getLast hW.1, (List.dropLast_append_getLast hW.1).symm⟩
  have hwl : isWord wl := hW.2 wl (by simp)
  have hlen2 : ((W0 ++ [wl] ++ [tokGt, f, sentinel]).take 2).length = 2 := by
    simp
  rw [a6]
  generalize hs2 :
    ({ cmdArgs := List.take 2 (W0 ++ [wl] ++ [tokGt, f, sentinel])
                    ++ (W0 ++ [wl] ++ [sentinel]),
       nextInputFd := 0, cmdArgStart := 0 + 2, cmdArgEnd := (W0 ++ [wl]).length + 1,
       cmdArgLength := ((W0 ++ [wl]).length : Int) - ((0 : Nat) : Int),
       cmdArgIndex := (W0 ++ [wl]).length + 1,
       trace := tr ++ [Event.fclose h] } : ParseState) = s2
  have b1 : s2.cmdArgs = (List.take 2 (W0 ++ [wl] ++ [tokGt, f, sentinel]) ++ W0)
      ++ ([wl] ++ [sentinel]) := by rw [← hs2]; simp
  have b2 : s2.cmdArgIndex = (List.take 2 (W0 ++ [wl] ++ [tokGt, f, sentinel]) ++ W0).length := by
    rw [← hs2]; simp; omega
  have key := parseLoop_words os [wl] (by simpa using hwl) _ [sentinel] s2 b1 b2 (1 + extra)
  rw [List.length_singleton] at key
  rw [key]
  have b3 : s2.cmdArgs = List.take 2 (W0 ++ [wl] ++ [tokGt, f, sentinel])
      ++ ((W0 ++ [wl]) ++ [sentinel]) := by rw [← hs2]
  have b4 : s2.cmdArgStart = 2 := by rw [← hs2]
  have b5 : s2.cmdArgEnd = (W0 ++ [wl]).length + 1 := by rw [← hs2]
  have b6 : s2.cmdArgIndex = (W0 ++ [wl]).length + 1 := by rw [← hs2]
  have b7 : s2.trace = tr ++ [Event.fclose h] := by rw [← hs2]
  have b8 : s2.nextInputFd = 0 := by rw [← hs2]
  obtain ⟨r, hr, hwr⟩ := parseLoop_sentinel os
    { s2 with
      cmdArgEnd := s2.cmdArgEnd + 1, cmdArgLength := s2.cmdArgLength + (1 : Nat),
      cmdArgIndex := s2.cmdArgIndex + 1 } (W0 ++ [wl])
    (by
      simp only [b3, b6]
      have := getElem?_after
        (List.take 2 (W0 ++ [wl] ++ [tokGt, f, sentinel]) ++ (W0 ++ [wl])) [sentinel] 0
      rw [List.length_append, hlen2] at this
      simpa [Nat.add_comm, Nat.add_left_comm, Nat.add_assoc] using this)
    (buildCmd_segment _ (List.take 2 (W0 ++ [wl] ++ [tokGt, f, sentinel])) (W0 ++ [wl])
      [sentinel] b3 (by rw [hlen2]; exact b4) (by simp only [b5, hlen2]; omega))
    extra
  refine ⟨r, hr, ?_⟩
  rw [hwr]
  show wiring s2.trace ++ [Event.call (W0 ++ [wl]) s2.nextInputFd 1] = _
  rw [b7, b8, wiring_append, hwtr]
  rfl

theorem execCalls_eq_wiring (tr : List Event) : execCalls tr = execCalls (wiring tr) := by
  induction tr with
  | nil => rfl
  | cons e tr ih =>
    cases e <;> simp_all [execCalls, wiring, List.filter_cons, List.filterMap_cons]

/-- Claim C6: on `W > f` the file `f` is opened (mode `a+`) giving a stream on descriptor
`h`, then `W` is executed with inherited input and output `h`, then the stream is closed;
the close comes before the end of the run. The operating system opens the file and does not
hand out descriptor 1 for it. -/
theorem parse_redirect (os : Os) (W : List Token) (f : Token) (h : Int)
    (hW : isCommand W) (hf : f ≠ sentinel) (hopen : os.fopen [Event.toggle] f = some h)
    (hh : h ≠ 1) (extra : Nat) :
    ∃ r, tshParseCmdArgs os ((W ++ [tokGt, f, sentinel]).length + extra)
          (W ++ [tokGt, f, sentinel]) = some r
      ∧ wiring r.trace
          = [Event.fopen f h, Event.call W 0 h, Event.fclose h, Event.call W 0 1] :=
  parse_redirect_run os W f h hW hf hopen hh extra

theorem parse_redirect_witness :
    isCommand ["echo".toList, "hi".toList]
    ∧ ∃ r, tshParseCmdArgs sampleOs 5
          ["echo".toList, "hi".toList, tokGt, "/tmp/out.txt".toList, sentinel] = some r
        ∧ wiring r.trace = [Event.fopen "/tmp/out.txt".toList 3,
            Event.call ["echo".toList, "hi".toList] 0 3, Event.fclose 3,
            Event.call ["echo".toList, "hi".toList] 0 1] :=
  ⟨by decide,
    parse_redirect sampleOs ["echo".toList, "hi".toList] "/tmp/out.txt".toList 3 (by decide)
      (by decide) rfl (by decide) 0⟩

/-- Claim C8, what the code does: on `W > f` the segment `W` is executed twice, first
writing to the file and then, when the scan reaches the sentinel, writing to the inherited
output. -/
theorem parse_redirect_executes_twice (os : Os) (W : List Token) (f : Token) (h : Int)
    (hW : isCommand W) (hf : f ≠ sentinel) (hopen : os.fopen [Event.toggle] f = some h)
    (hh : h ≠ 1) (extra : Nat) :
    ∃ r, tshParseCmdArgs os ((W ++ [tokGt, f, sentinel]).length + extra)
          (W ++ [tokGt, f, sentinel]) = some r
      ∧ execCalls r.trace = [(W, 0, h), (W, 0, 1)] := by
  obtain ⟨r, hr, hwr⟩ := parse_redirect_run os W f h hW hf hopen hh extra
  refine ⟨r, hr, ?_⟩
  rw [execCalls_eq_wiring, hwr]
  rfl

theorem parse_redirect_executes_twice_witness :
    isCommand ["echo".toList, "hi".toList]
    ∧ ∃ r, tshParseCmdArgs sampleOs 5
          ["echo".toList, "hi".toList, tokGt, "/tmp/out.txt".toList, sentinel] = some r
        ∧ execCalls r.trace
            = [(["echo".toList, "hi".toList], 0, 3), (["echo".toList, "hi".toList], 0, 1)] :=
  ⟨by decide,
    parse_redirect_executes_twice sampleOs ["echo".toList, "hi".toList] "/tmp/out.txt".toList 3
      (by decide) (by decide) rfl (by decide) 0⟩

theorem parseLoop_stuck (os : Os) (s : ParseState) (h : parseStep os s = .next s) :
    ∀ fuel, parseLoop os fuel s = none := by
  intro fuel
  induction fuel with
  | zero => rfl
  | succ n ih => rw [parseLoop_succ, h]; exact ih

/-- Claim C9, what the code does: a step with the cursor on `<` changes nothing, the cursor
included, so the scan of `cat < f` never reaches the sentinel: no number of iterations ends
the run. -/
theorem parse_lt_never_returns (os : Os) (fuel : Nat) :
    parseStep os
        { parseInit ["cat".toList, tokLt, ['f'], sentinel] with
          cmdArgEnd := 1, cmdArgLength := 1, cmdArgIndex := 1 }
      = .next
        { parseInit ["cat".toList, tokLt, ['f'], sentinel] with
          cmdArgEnd := 1, cmdArgLength := 1, cmdArgIndex := 1 }
    ∧ tshParseCmdArgs os fuel ["cat".toList, tokLt, ['f'], sentinel] = none := by
  refine ⟨parseStep_lt os _ (by rfl), ?_⟩
  rw [tshParseCmdArgs_of_head os fuel _ _ (by decide)]
  cases fuel with
  | zero => rfl
  | succ n =>
    rw [parseLoop_succ, parseStep_word os _ "cat".toList (by rfl) (by decide)]
    exact parseLoop_stuck os _ (parseStep_lt os _ (by rfl)) n

/-- Claim C10: an operator right before the sentinel is scanned as a command word: `W op`
is executed once, as the vector `W ++ [op]` with inherited input and output, and no pipe is
created and no file is opened. -/
theorem parse_trailing_operator (os : Os) (W : List Token) (op : Token) (hW : isCommand W)
    (hop : op = tokAnd ∨ op = tokPipe ∨ op = tokGt) (extra : Nat) :
    ∃ r, tshParseCmdArgs os ((W ++ [op, sentinel]).length + extra) (W ++ [op, sentinel])
          = some r
      ∧ wiring r.trace = [Event.call (W ++ [op]) 0 1] := by
  rw [tshParseCmdArgs_of_isCommand os _ W _ hW,
    show (W ++ [op, sentinel]).length + extra = W.length + ((1 + extra) + 1) by simp; omega,
    parseLoop_words os W hW.2 [] [op, sentinel] (parseInit (W ++ [op, sentinel])) rfl rfl,
    parseLoop_succ]
  generalize hs1 : ({ parseInit (W ++ [op, sentinel]) with
        cmdArgEnd := (parseInit (W ++ [op, sentinel])).cmdArgEnd + W.length,
        cmdArgLength := (parseInit (W ++ [op, sentinel])).cmdArgLength + W.length,
        cmdArgIndex := (parseInit (W ++ [op, sentinel])).cmdArgIndex + W.length }
          : ParseState) = s1
  have a1 : s1.cmdArgs = W ++ [op, sentinel] := by rw [← hs1]; rfl
  have a2 : s1.cmdArgIndex = W.length := by rw [← hs1]; simp [parseInit]
  have a3 : s1.cmdArgStart = 0 := by rw [← hs1]; rfl
  have a4 : s1.cmdArgEnd = W.length := by rw [← hs1]; simp [parseInit]
  have a5 : s1.trace = [Event.toggle] := by rw [← hs1]; rfl
  have a6 : s1.nextInputFd = 0 := by rw [← hs1]; rfl
  have g0 : s1.cmdArgs[s1.cmdArgIndex]? = some op := by
    rw [a1, a2]; simpa using getElem?_after W [op, sentinel] 0
  have g1 : s1.cmdArgs[s1.cmdArgIndex + 1]? = some sentinel := by
    rw [a1, a2]; simpa using getElem?_after W [op, sentinel] 1
  rw [parseStep_trailing os s1 op hop g0 g1, stepWord]
  obtain ⟨r, hr, hwr⟩ := parseLoop_sentinel os
    { s1 with
      cmdArgEnd := s1.cmdArgEnd + 1, cmdArgLength := s1.cmdArgLength + 1,
      cmdArgIndex := s1.cmdArgIndex + 1 } (W ++ [op])
    (by
      simp only [a1, a2]
      simpa using getElem?_after (W ++ [op]) [sentinel] 0)
    (buildCmd_segment _ [] (W ++ [op]) [sentinel] (by simp [a1]) (by simp [a3])
      (by simp [a4]))
    extra
  refine ⟨r, hr, ?_⟩
  rw [hwr]
  show wiring s1.trace ++ [Event.call (W ++ [op]) s1.nextInputFd 1] = _
  rw [a5, a6]
  rfl

theorem parse_trailing_operator_witness :
    isCommand ["cat".toList]
    ∧ ∃ r, tshParseCmdArgs sampleOs 3 ["cat".toList, tokPipe, sentinel] = some r
        ∧ wiring r.trace = [Event.call ["cat".toList, tokPipe] 0 1] :=
  ⟨by decide,
    parse_trailing_operator sampleOs ["cat".toList] tokPipe (by decide) (by decide) 0⟩

/-! ## The remaining claims -/

theorem cStr_no_nul (line : List Char) : ∀ c ∈ cStr line, c ≠ Char.ofNat 0 := by
  intro c hc
  have := List.mem_takeWhile_imp hc
  simpa using this

theorem finishLine_tokens (st : TokState)
    (hargs : ∀ t ∈ st.cmdArgs, t ≠ [] ∧ ∀ c ∈ t, c ≠ Char.ofNat 0)
    (harg : ∀ c ∈ st.arg, c ≠ Char.ofNat 0) :
    ∃ toks, finishLine st = toks ++ [sentinel]
      ∧ ∀ t ∈ toks, t ≠ [] ∧ ∀ c ∈ t, c ≠ Char.ofNat 0 := by
  unfold finishLine
  by_cases ha : st.arg = []
  · refine ⟨st.cmdArgs, by simp [ha], hargs⟩
  · refine ⟨st.cmdArgs ++ [st.arg], by simp [ha], ?_⟩
    intro t ht
    rcases List.mem_append.1 ht with h | h
    · exact hargs t h
    · rw [List.mem_singleton] at h
      subst h
      exact ⟨ha, harg⟩

theorem tokenizeLoop_tokens (n : Nat) :
    ∀ (line : List Char) (st : TokState), line.length ≤ n →
      (∀ c ∈ line, c ≠ Char.ofNat 0) →
      (∀ t ∈ st.cmdArgs, t ≠ [] ∧ ∀ c ∈ t, c ≠ Char.ofNat 0) →
      (∀ c ∈ st.arg, c ≠ Char.ofNat 0) →
      ∃ toks, tokenizeLoop line st = toks ++ [sentinel]
        ∧ ∀ t ∈ toks, t ≠ [] ∧ ∀ c ∈ t, c ≠ Char.ofNat 0 := by
  induction n with
  | zero =>
    intro line st hlen _ hargs harg
    have : line = [] := List.length_eq_zero.1 (Nat.le_zero.1 hlen)
    subst this
    exact finishLine_tokens st hargs harg
  | succ n ih =>
    intro line st hlen hline hargs harg
    cases line with
    | nil => exact finishLine_tokens st hargs harg
    | cons c rest =>
      have hc : c ≠ Char.ofNat 0 := hline c (List.mem_cons_self _ _)
      have hrest : ∀ d ∈ rest, d ≠ Char.ofNat 0 := fun d hd =>
        hline d (List.mem_cons_of_mem _ hd)
      have hl : rest.length ≤ n := by simpa using hlen
      have hstore : ∀ x : Char, x ≠ Char.ofNat 0 →
          ∀ d ∈ (storeChar st x).arg, d ≠ Char.ofNat 0 := by
        intro x hx d hd
        rw [storeChar_arg, List.mem_append, List.mem_singleton] at hd
        rcases hd with hd | hd
        · exact harg d hd
        · exact hd ▸ hx
      rw [tokenizeLoop_cons]
      split_ifs with h1 h2 h3 h4
      · exact ih rest _ hl hrest (by simpa using hargs) (by simpa using harg)
      · cases rest with
        | nil => exact finishLine_tokens _ (by simpa using hargs) (by simpa using harg)
        | cons d rest2 =>
          have hd : d ≠ Char.ofNat 0 := hrest d (List.mem_cons_self _ _)
          have hrest2 : ∀ e ∈ rest2, e ≠ Char.ofNat 0 := fun e he =>
            hrest e (List.mem_cons_of_mem _ he)
          have hl2 : rest2.length ≤ n := by
            have : rest2.length + 1 ≤ n := by simpa using hl
            omega
          simp only
          split_ifs
          · refine ih rest2 _ hl2 hrest2 (by simpa using hargs) ?_
            intro e he
            simp only [growArg_arg, List.mem_append, List.mem_cons, List.mem_singleton,
              List.not_mem_nil, or_false] at he
            rcases he with he | he | he
            · exact harg e he
            · subst he; decide
            · subst he; decide
          · exact ih rest2 _ hl2 hrest2 (by simpa using hargs) (hstore _ (by decide))
          · exact ih rest2 _ hl2 hrest2 (by simpa using hargs) (hstore _ (by decide))
          · exact ih rest2 _ hl2 hrest2 (by simpa using hargs) (hstore _ (by decide))
          · exact ih rest2 _ hl2 hrest2 (by simpa using hargs) (hstore _ (by decide))
          · exact ih (d :: rest2) _ hl hrest (by simpa using hargs) (by simpa using harg)
      · refine ih rest _ hl hrest ?_ (by simp)
        intro t ht
        rw [nextToken_cmdArgs, List.mem_append, List.mem_singleton] at ht
        rcases ht with ht | ht
        · exact hargs t ht
        · subst ht
          exact ⟨by simpa using h4, harg⟩
      · exact ih rest _ hl hrest (by simpa using hargs) (by simpa using harg)
      · exact ih rest _ hl hrest (by simpa using hargs) (hstore c hc)

theorem indexOf_sentinel (toks : List Token) (h : sentinel ∉ toks) :
    List.indexOf sentinel (toks ++ [sentinel]) = toks.length := by
  induction toks with
  | nil => simp [List.indexOf_cons]
  | cons t toks ih =>
    have ht : t ≠ sentinel := fun e => h (e ▸ List.mem_cons_self _ _)
    have hrest : sentinel ∉ toks := fun hm => h (List.mem_cons_of_mem _ hm)
    have hb : (t == sentinel) = false := by simpa using ht
    rw [List.cons_append, List.indexOf_cons, ih hrest, hb]
    rfl

/-- Claim C20: every token before the sentinel is a non-empty string without NUL, so the
first empty string of the returned sequence is the sentinel, at the index that equals the
number of tokens; a pair of quotes with nothing between them gives no token. -/
theorem tokenize_sentinel_unambiguous (line : List Char) :
    (∃ toks, tshTokenizeCmdLine line = toks ++ [sentinel]
      ∧ (∀ t ∈ toks, t ≠ sentinel ∧ ∀ c ∈ t, c ≠ Char.ofNat 0)
      ∧ (tshTokenizeCmdLine line).indexOf sentinel = toks.length)
    ∧ tshTokenizeCmdLine ['"', '"'] = [sentinel] := by
  refine ⟨?_, by decide⟩
  obtain ⟨toks, h1, h2⟩ := tokenizeLoop_tokens (cStr line).length (cStr line) tokInit
    (Nat.le_refl _) (cStr_no_nul line) (by simp [tokInit]) (by simp [tokInit])
  refine ⟨toks, h1, h2, ?_⟩
  have hnot : sentinel ∉ toks := fun hm => (h2 sentinel hm).1 rfl
  show List.indexOf sentinel (tokenizeLoop (cStr line) tokInit) = toks.length
  rw [h1, indexOf_sentinel toks hnot]

/-- Claim C11, what the code does: on the line `&& a` the first segment is empty and
`tshExecuteCmd` is invoked with the empty vector, whose `cmd[0]` lies outside it. -/
theorem parse_empty_segment_executed (os : Os) (fuel : Nat) :
    tshTokenizeCmdLine "&& a".toList = [tokAnd, ['a'], sentinel]
    ∧ tshParseCmdArgs os (fuel + 1) (tshTokenizeCmdLine "&& a".toList)
        = some { outcome := .fault, trace := [Event.toggle, Event.call [] 0 1] } := by
  have h : tshTokenizeCmdLine "&& a".toList = [tokAnd, ['a'], sentinel] := by decide
  refine ⟨h, ?_⟩
  rw [h]
  rfl

/-- Claim C12, what the code does: after a successful `chdir` the built-in `cd` does not
return; control reaches `fork` and a process is created (or the `fork` fails). -/
theorem cd_success_forks (os : Os) (tr : List Event) (d : Token) (args : List Token)
    (i : Int) (hok : os.chdir (tr ++ [Event.call (tokCd :: d :: args) i 1]) d = true) :
    (forkAttempts (tshExecuteCmd os tr (tokCd :: d :: args) i 1).trace).length
      = (forkAttempts tr).length + 1 := by
  unfold tshExecuteCmd cdBuiltin
  simp only [true_and, if_true, hok]
  rw [if_neg (by decide)]
  cases os.fork (tr ++ [Event.call (tokCd :: d :: args) i 1] ++ [Event.chdir d true]) with
  | none => simp [ExecResult.trace, forkAttempts]
  | some pid => simp [ExecResult.trace, forkAttempts]

theorem cd_success_forks_witness :
    tshExecuteCmd sampleOs [] [tokCd, "/tmp".toList] 0 1
        = .ret 0 [Event.call [tokCd, "/tmp".toList] 0 1, Event.chdir "/tmp".toList true,
            Event.spawn [tokCd, "/tmp".toList] 0 1 100, Event.waited 100]
    ∧ (forkAttempts (tshExecuteCmd sampleOs [] [tokCd, "/tmp".toList] 0 1).trace).length
        = (forkAttempts []).length + 1 :=
  ⟨by decide, cd_success_forks sampleOs [] "/tmp".toList [] 0 rfl⟩

/-- Claim C13: `cd` without a target, with the inherited output, returns 1 having called
neither `chdir` nor `fork`; `cd d` with the inherited output returns -1 when `chdir(d)`
fails. The vector is read as `NULL`-terminated. -/
theorem cd_failure (os : Os) (tr : List Event) (d : Token) (i : Int)
    (hfail : os.chdir (tr ++ [Event.call [tokCd, d] i 1]) d = false) :
    tshExecuteCmd os tr [tokCd] i 1 = .ret 1 (tr ++ [Event.call [tokCd] i 1])
    ∧ tshExecuteCmd os tr [tokCd, d] i 1
        = .ret (-1) (tr ++ [Event.call [tokCd, d] i 1, Event.chdir d false]) := by
  constructor
  · simp [tshExecuteCmd, cdBuiltin]
  · simp [tshExecuteCmd, cdBuiltin, hfail]

theorem cd_failure_witness :
    tshExecuteCmd noDirOs [] [tokCd] 0 1 = .ret 1 ([] ++ [Event.call [tokCd] 0 1])
    ∧ tshExecuteCmd noDirOs [] [tokCd, ['x']] 0 1
        = .ret (-1) ([] ++ [Event.call [tokCd, ['x']] 0 1, Event.chdir ['x'] false]) :=
  cd_failure noDirOs [] ['x'] 0 rfl

/-- Claim C14: with an output other than the inherited one no built-in is run, whatever
the first word, `cd` and `exit` included: `tshExecuteCmd` returns (the interpreter goes on)
and makes no call of `chdir`, so the working directory of the interpreter is the one it
had. -/
theorem builtin_guard (os : Os) (tr : List Event) (c0 : Token) (args : List Token)
    (i o : Int) (ho : o ≠ 1) :
    ∃ status tr2, tshExecuteCmd os tr (c0 :: args) i o = .ret status tr2
      ∧ chdirCalls tr2 = chdirCalls tr := by
  unfold tshExecuteCmd cdBuiltin
  simp only [ho, and_false, if_false]
  cases os.fork (tr ++ [Event.call (c0 :: args) i o]) with
  | none => exact ⟨_, _, rfl, by simp [chdirCalls]⟩
  | some pid => exact ⟨_, _, rfl, by simp [chdirCalls]⟩

theorem builtin_guard_witness :
    (∃ status tr2, tshExecuteCmd sampleOs [] [tokCd, "/tmp".toList] 0 4 = .ret status tr2
      ∧ chdirCalls tr2 = chdirCalls [])
    ∧ ∃ status tr2, tshExecuteCmd sampleOs [] [tokExit] 0 4 = .ret status tr2
      ∧ chdirCalls tr2 = chdirCalls [] :=
  ⟨builtin_guard sampleOs [] tokCd ["/tmp".toList] 0 4 (by decide),
    builtin_guard sampleOs [] tokExit [] 0 4 (by decide)⟩

/-- Claim C15, what the code does: after `echo hi | tr a-z A-Z` the run returns with the
read end of the pipe still open in the interpreter; only the write end was closed. -/
theorem parse_pipe_read_end_leaked :
    tshParseCmdArgs sampleOs 7 (tshTokenizeCmdLine "echo hi | tr a-z A-Z".toList)
      = some { outcome := .returned 0,
               trace := [Event.toggle, Event.pipe 3 4,
                 Event.call ["echo".toList, "hi".toList] 0 4,
                 Event.spawn ["echo".toList, "hi".toList] 0 4 100, Event.waited 100,
                 Event.close 4,
                 Event.call ["tr".toList, "a-z".toList, "A-Z".toList] 3 1,
                 Event.spawn ["tr".toList, "a-z".toList, "A-Z".toList] 3 1 100,
                 Event.waited 100, Event.toggle] }
    ∧ (tshParseCmdArgs sampleOs 7 (tshTokenizeCmdLine "echo hi | tr a-z A-Z".toList)).map
        (fun r => leakedFds r.trace) = some [3] := by
  decide

/-- Claim C17, what the code does: in `a && b > f` the copy of line 138 goes to index 2,
not behind the segment start, so `f` stays in the array, is scanned as a command word and
is executed as a command at the sentinel. -/
theorem parse_redirect_target_executed :
    (tshParseCmdArgs sampleOs 6 [['a'], tokAnd, ['b'], tokGt, ['f'], sentinel]).map
        (fun r => execCalls r.trace)
      = some [([['a']], 0, 1), ([['b']], 0, 3), ([['f']], 0, 1)] := by
  decide

/-- Claim C18, what the code does: on a line of ten words without trailing space the
sentinel is stored at index 10 of the token array while its capacity is 10. -/
theorem tokenize_sentinel_store_out_of_bounds :
    Store.slot 10 10 ∈ tokenizeStores "a b c d e f g h i j".toList
    ∧ (tokenizeStores "a b c d e f g h i j".toList).filter (fun s => !s.inBounds)
        = [Store.slot 10 10] := by
  decide

/-- Claim C19, what the code does: the escape backslash-n after 19 characters of a token
stores its second character at position 20 of a buffer of capacity 20. -/
theorem tokenize_escape_store_out_of_bounds :
    Store.char 20 20 ∈ tokenizeStores "aaaaaaaaaaaaaaaaaaa\\n".toList
    ∧ (tokenizeStores "aaaaaaaaaaaaaaaaaaa\\n".toList).filter (fun s => !s.inBounds)
        = [Store.char 20 20] := by
  decide

theorem tokenizeLoop_other_escape (c : Char) (rest : List Char) (st : TokState)
    (hc : c ≠ 'n' ∧ c ≠ 'r' ∧ c ≠ '\\' ∧ c ≠ '"' ∧ c ≠ '\'') :
    tokenizeLoop ('\\' :: c :: rest) st = tokenizeLoop (c :: rest) (growArg st) := by
  obtain ⟨h1, h2, h3, h4, h5⟩ := hc
  rw [tokenizeLoop_cons]
  simp [h1, h2, h3, h4, h5]

/-- Claim C16, amended: a backslash before a character that is neither a recognised escape
letter nor a space is dropped, and the character is stored in the token like any other. -/
theorem tokenize_other_escape (p q : List Char) (c : Char)
    (hp : ∀ x ∈ p, x ≠ ' ' ∧ x ≠ '"' ∧ x ≠ '\\' ∧ x ≠ Char.ofNat 0)
    (hq : ∀ x ∈ q, x ≠ ' ' ∧ x ≠ '"' ∧ x ≠ '\\' ∧ x ≠ Char.ofNat 0)
    (hc : c ≠ 'n' ∧ c ≠ 'r' ∧ c ≠ '\\' ∧ c ≠ '"' ∧ c ≠ '\'')
    (hsp : c ≠ ' ') (hnul : c ≠ Char.ofNat 0) :
    tshTokenizeCmdLine (p ++ '\\' :: c :: q) = [p ++ c :: q, sentinel] := by
  unfold tshTokenizeCmdLine
  rw [cStr_eq_self]
  · obtain ⟨s1, a1, b1, c1, d1⟩ := tokenizeLoop_store_run p ('\\' :: c :: q) tokInit
      (fun x hx => ⟨(hp x hx).2.1, (hp x hx).2.2.1, fun hs => absurd hs (hp x hx).1⟩)
    obtain ⟨s3, a3, b3, c3, d3⟩ := tokenizeLoop_store_run (c :: q) [] (growArg s1)
      (fun x hx => by
        rcases List.mem_cons.1 hx with hx | hx
        · subst hx; exact ⟨hc.2.2.2.1, hc.2.2.1, fun hs => absurd hs hsp⟩
        · exact ⟨(hq x hx).2.1, (hq x hx).2.2.1, fun hs => absurd hs (hq x hx).1⟩)
    rw [d1, tokenizeLoop_other_escape c q s1 hc]
    rw [List.append_nil] at d3
    rw [d3, tokenizeLoop_nil, finishLine]
    simp [a3, b3, a1, b1, tokInit]
  · intro x hx
    simp only [List.mem_append, List.mem_cons] at hx
    rcases hx with hx | hx | hx | hx
    · exact (hp x hx).2.2.2
    · subst hx; decide
    · subst hx; exact hnul
    · exact (hq x hx).2.2.2

theorem tokenize_other_escape_witness :
    tshTokenizeCmdLine "a\\xb".toList = ["axb".toList, sentinel] :=
  tokenize_other_escape ['a'] ['b'] 'x' (by decide) (by decide) (by decide) (by decide)
    (by decide)

/-- Claim C16, counterexample: a space after a backslash still ends the token: the line
`a`, backslash, space, `b` gives the two tokens `a` and `b`, not the one token `a b`. -/
theorem tokenize_escaped_space_counterexample :
    tshTokenizeCmdLine ("a".toList ++ '\\' :: ' ' :: "b".toList)
        = ["a".toList, "b".toList, sentinel]
    ∧ tshTokenizeCmdLine ("a".toList ++ '\\' :: ' ' :: "b".toList)
        ≠ ["a".toList ++ ' ' :: "b".toList, sentinel] := by
  decide

end Tsh
